import Mathlib

/-!
The script symbol import table (`Engine/script/systemimports.cpp`)

A shallow embedding of `SystemImports`: the sequence `imports` of `ScriptImport`
entries and the sorted index `btree` (a `std::map` from name to entry index), with
the operations `add`, `remove`, `getByName`, `getByIndex`, `get_index_of`,
`findName`, `RemoveScriptExports` and `clear`.

Conventions of the embedding.

* A name (`AGS::Common::String`) is a list of characters; `std::map` orders its keys
  with `operator<`, which is `strcmp`, the lexicographic order of the character codes.
* An entry index is a natural number.  `get_index_of` returns `UINT32_MAX` for
  "not found"; here the result is an `Option`, `none` standing for `UINT32_MAX`.
  The sequence is taken to hold fewer than `UINT32_MAX` entries, so that
  `imports.size()` fits the `uint32_t` index without truncation.
* `imports[i]` with `i` out of range is undefined behaviour in the source.  The
  embedding is total: reading gives the default entry and writing does nothing.
* `ccInstance *` is an optional module identifier, `none` standing for `nullptr`.
-/

namespace AGS

/-- Modelled from the spec: `AGS::Common::String` (declared in `util/string.h`, which
is not among the sources), a sequence of characters. -/
abbrev CString := List Char

/-- The name written as a string literal. -/
abbrev cstr (s : String) : CString := s.toList

namespace CString

/-- Modelled from the spec: `String::FindCharReverse(c)`, the position of the last
occurrence of `c`, `none` standing for `String::NoIndex`. -/
def FindCharReverse : CString → Char → Option Nat
  | [], _ => none
  | x :: xs, c =>
    match FindCharReverse xs c with
    | some i => some (i + 1)
    | none => if x = c then some 0 else none

/-- Modelled from the spec: `String::Left(count)`, the first `count` characters. -/
def Left (s : CString) (count : Nat) : CString := s.take count

/-- Modelled from the spec: `String::CompareLeft(cstr)`, which is
`strncmp(s, cstr, strlen(cstr))`: the sign of comparing the first `strlen(cstr)`
characters of `s` with `cstr`. -/
def CompareLeft (s cstr : CString) : Int :=
  if s.take cstr.length = cstr then 0
  else if s.take cstr.length < cstr then -1 else 1

end CString

/-- Modelled from the spec: `RuntimeScriptValue` (declared outside the sources), an
opaque value compared with `==`; `none` is the default constructed value, which is
also what `Invalidate()` leaves behind. -/
abbrev RuntimeScriptValue := Option Nat

/-- Modelled from the spec: `ccInstance *`, the owning module of an export; `none` is
`nullptr`, a natively registered symbol. -/
abbrev InstancePtr := Option Nat

/-- Modelled from the spec: `ScriptValueHint`, the classification of a value; `0` is
the default hint. -/
abbrev ScriptValueHint := Nat

/-- Modelled from the spec: `struct ScriptImport` (declared in
`script/systemimports.h`, which is not among the sources): one registered symbol.
An empty `Name` marks a free slot. -/
structure ScriptImport where
  Name : CString
  Value : RuntimeScriptValue
  InstancePtr : InstancePtr
  ValueHint : ScriptValueHint
  deriving DecidableEq, Repr

/-- The default constructed `ScriptImport`, written `{}` in the source. -/
instance : Inhabited ScriptImport := ⟨⟨[], none, none, 0⟩⟩

/-- Modelled from the spec: `IndexMap`, that is `std::map<String, uint32_t>`: the
entries of the map in the order of iteration (ascending keys). -/
abbrev IndexMap := List (CString × Nat)

namespace IndexMap

/-- Representation invariant of `std::map`: the keys are strictly ascending (so no
key occurs twice). -/
def WF (m : IndexMap) : Prop := m.Pairwise (fun a b => a.1 < b.1)

instance (m : IndexMap) : Decidable m.WF := by unfold WF; infer_instance

/-- `btree.find(key)`: the entry stored under `key`, `none` standing for
`btree.end()`. -/
def find (m : IndexMap) (key : CString) : Option (CString × Nat) :=
  List.find? (fun e => e.1 = key) m

/-- `btree.lower_bound(key)`: the first entry whose key is not less than `key`, `none`
standing for `btree.end()`. -/
def lower_bound (m : IndexMap) (key : CString) : Option (CString × Nat) :=
  List.find? (fun e => ¬ e.1 < key) m

/-- `btree[key] = ix`: assign to the entry of `key`, inserting it at its place in the
order when the key is new. -/
def assign : IndexMap → CString → Nat → IndexMap
  | [], key, ix => [(key, ix)]
  | e :: m, key, ix =>
    if key < e.1 then (key, ix) :: e :: m
    else if key = e.1 then (key, ix) :: m
    else e :: assign m key ix

/-- `btree.erase(key)`: drop the entry stored under `key`, if any. -/
def erase (m : IndexMap) (key : CString) : IndexMap :=
  List.filter (fun e => e.1 ≠ key) m

end IndexMap

/-- The table: `class SystemImports` with its two members. -/
structure SystemImports where
  imports : List ScriptImport
  btree : IndexMap
  deriving DecidableEq, Repr

namespace SystemImports

/-- The table as constructed: no entries. -/
def empty : SystemImports := ⟨[], []⟩

/-- The last rule of `get_index_of` (the lookup of an exported script function):
`btree.lower_bound(name + "$")` and the check of the key found with `CompareLeft`. -/
def get_index_of_exported (btree : IndexMap) (name : CString) : Option Nat :=
  let export_name := name ++ ['$']
  match btree.lower_bound export_name with
  | some it => if it.1.CompareLeft export_name = 0 then some it.2 else none
  | none => none

/-- The body of `get_index_of`, with the depth of the recursion bounded by `fuel`.
Each recursive call is made on a strictly shorter name, so `name.length + 1` is
enough fuel (`get_index_of_fuel_eq`), and `get_index_of` satisfies the recursive
equation of the source (`get_index_of_eq`). -/
def get_index_of_fuel (btree : IndexMap) : Nat → CString → Option Nat
  | 0, _ => none
  | fuel + 1, name =>
    match btree.find name with
    | some it => some it.2
    | none =>
      if name.length > 3 then
        match name.FindCharReverse '^' with
        | some c =>
          if c ≥ name.length - 4 then get_index_of_fuel btree fuel (name.Left c)
          else get_index_of_exported btree name
        | none => get_index_of_exported btree name
      else get_index_of_exported btree name

/-- `SystemImports::get_index_of`. -/
def get_index_of (t : SystemImports) (name : CString) : Option Nat :=
  get_index_of_fuel t.btree (name.length + 1) name

/-- `SystemImports::add`; returns the table after the call and the index returned. -/
def add (t : SystemImports) (name : CString) (value : RuntimeScriptValue)
    (anotherscr : InstancePtr) (val_hint : ScriptValueHint) : SystemImports × Nat :=
  match t.get_index_of name with
  | some ixof =>
    if anotherscr = none then
      (⟨t.imports.set ixof ⟨name, value, anotherscr, val_hint⟩, t.btree⟩, ixof)
    else (t, ixof)
  | none =>
    let ixof := t.imports.findIdx (fun imp => imp.Name = [])
    let btree := t.btree.assign name ixof
    if ixof = t.imports.length then
      (⟨t.imports ++ [⟨name, value, anotherscr, val_hint⟩], btree⟩, ixof)
    else
      (⟨t.imports.set ixof ⟨name, value, anotherscr, val_hint⟩, btree⟩, ixof)

/-- `SystemImports::remove`. -/
def remove (t : SystemImports) (name : CString) : SystemImports :=
  match t.get_index_of name with
  | none => t
  | some idx =>
    ⟨t.imports.set idx default, t.btree.erase (t.imports.getD idx default).Name⟩

/-- `SystemImports::getByName`; `none` is the null pointer. -/
def getByName (t : SystemImports) (name : CString) : Option ScriptImport :=
  match t.get_index_of name with
  | none => none
  | some o => some (t.imports.getD o default)

/-- `SystemImports::getByIndex`; `none` is the null pointer. -/
def getByIndex (t : SystemImports) (index : Nat) : Option ScriptImport :=
  if index ≥ t.imports.length then none else some (t.imports.getD index default)

/-- `SystemImports::findName`. -/
def findName (t : SystemImports) (value : RuntimeScriptValue) : CString :=
  match t.imports.find? (fun imp => imp.Value = value) with
  | some imp => imp.Name
  | none => []

/-- The loop of `RemoveScriptExports` over the entries still to visit, threading the
sorted index; returns the entries as left by the loop and the final index. -/
def RemoveScriptExports_loop (inst : InstancePtr) :
    List ScriptImport → IndexMap → List ScriptImport × IndexMap
  | [], btree => ([], btree)
  | imp :: rest, btree =>
    if imp.Name = [] then
      let r := RemoveScriptExports_loop inst rest btree
      (imp :: r.1, r.2)
    else if imp.InstancePtr = inst then
      let r := RemoveScriptExports_loop inst rest (btree.erase imp.Name)
      ({ imp with Name := [], Value := none, InstancePtr := none } :: r.1, r.2)
    else
      let r := RemoveScriptExports_loop inst rest btree
      (imp :: r.1, r.2)

/-- `SystemImports::RemoveScriptExports`. -/
def RemoveScriptExports (t : SystemImports) (inst : InstancePtr) : SystemImports :=
  if inst = none then t
  else
    let r := RemoveScriptExports_loop inst t.imports t.btree
    ⟨r.1, r.2⟩

/-- `SystemImports::clear`. -/
def clear (_t : SystemImports) : SystemImports := ⟨[], []⟩

/-- The table states the program can be in: those obtained from the empty table by
calls of `add`, `remove`, `RemoveScriptExports` and `clear`. -/
inductive Reachable : SystemImports → Prop
  | empty : Reachable SystemImports.empty
  | add {t : SystemImports} (name : CString) (value : RuntimeScriptValue)
      (anotherscr : InstancePtr) (val_hint : ScriptValueHint) :
      Reachable t → Reachable (t.add name value anotherscr val_hint).1
  | remove {t : SystemImports} (name : CString) :
      Reachable t → Reachable (t.remove name)
  | RemoveScriptExports {t : SystemImports} (inst : InstancePtr) :
      Reachable t → Reachable (t.RemoveScriptExports inst)
  | clear {t : SystemImports} : Reachable t → Reachable t.clear


/-- The index is well formed and every index it stores is a position of the
sequence: what every reachable table satisfies (`Reachable.inv`). -/
def Inv (t : SystemImports) : Prop :=
  t.btree.WF ∧ ∀ e ∈ t.btree, e.2 < t.imports.length

/-- A table holding the three names `foo`, `foo$1` and `foo^1` at once. -/
def table_foo : SystemImports :=
  ⟨[⟨(cstr "foo^1"), some 10, none, 0⟩, ⟨(cstr "foo"), some 11, none, 0⟩,
    ⟨(cstr "foo$1"), some 12, some 7, 0⟩],
   [((cstr "foo"), 1), ((cstr "foo$1"), 2), ((cstr "foo^1"), 0)]⟩

/-- The table after registering the single native symbol `a`. -/
def table_a : SystemImports := (empty.add (cstr "a") (some 1) none 0).1

/-- The table after registering the single native symbol `abc`. -/
def table_abc : SystemImports := (empty.add (cstr "abc") (some 1) none 0).1

/-- The table after module `7` exported the single symbol `Type::Method$1`. -/
def table_method : SystemImports :=
  (empty.add (cstr "Type::Method$1") (some 1) (some 7) 0).1

/-- The table after registering the single native symbol `DoThing^2`. -/
def table_dothing2 : SystemImports := (empty.add (cstr "DoThing^2") (some 1) none 0).1

/-- The table after registering the single native symbol `DoThing`. -/
def table_dothing : SystemImports := (empty.add (cstr "DoThing") (some 1) none 0).1

/-- The table after module `7` exported the symbol `g`. -/
def table_g : SystemImports := (empty.add (cstr "g") (some 1) (some 7) 0).1

/-- The table after the native symbol `f` was registered. -/
def table_f : SystemImports := (empty.add (cstr "f") (some 1) none 0).1

/-- The table after `f` and `g` were registered and `f` was removed again. -/
def table_hole : SystemImports :=
  (((empty.add (cstr "f") (some 1) none 0).1.add (cstr "g") (some 2) none 0).1.remove
    (cstr "f"))

/-- The table after the native symbols `foo^1` and `foo` were registered, in this
order. -/
def table_foo1 : SystemImports :=
  ((empty.add (cstr "foo^1") (some 1) none 0).1.add (cstr "foo") (some 2) none 0).1

/-- The table after module `7` exported `f$1` and `f$2`. -/
def table_f12 : SystemImports :=
  ((empty.add (cstr "f$1") (some 1) (some 7) 0).1.add (cstr "f$2") (some 2) (some 7) 0).1

/-- What one round of the loop of `RemoveScriptExports` leaves of an entry: an entry
with a name that is owned by `inst` is retired, any other entry is kept. -/
def RemoveScriptExports_entry (inst : InstancePtr) (imp : ScriptImport) : ScriptImport :=
  if imp.Name = [] then imp
  else if imp.InstancePtr = inst then
    { imp with Name := [], Value := none, InstancePtr := none }
  else imp

/-- Whether `key` is a key that `get_index_of` accepts for `name`: the name itself, the
name cut at its last `^` for as long as the strip rule applies, or, for the last name
so obtained, a key that continues it with `$`.  The recursion is that of
`get_index_of_fuel`. -/
def accepts_fuel (key : CString) : Nat → CString → Bool
  | 0, _ => false
  | fuel + 1, name =>
    decide (key = name) ||
      (if name.length > 3 then
        match name.FindCharReverse '^' with
        | some c =>
          if c ≥ name.length - 4 then accepts_fuel key fuel (name.Left c)
          else decide (name ++ ['$'] <+: key)
        | none => decide (name ++ ['$'] <+: key)
      else decide (name ++ ['$'] <+: key))

/-- Whether `key` is a key that `get_index_of` accepts for `name`. -/
def accepts (key name : CString) : Bool := accepts_fuel key (name.length + 1) name

/-- The table states reached from the empty table by a sequence of calls, together
with the names that the calls of `add` in the sequence were given (latest first). -/
inductive ReachableWith : List CString → SystemImports → Prop
  | empty : ReachableWith [] SystemImports.empty
  | add {ns : List CString} {t : SystemImports} (name : CString)
      (value : RuntimeScriptValue) (anotherscr : InstancePtr) (val_hint : ScriptValueHint) :
      ReachableWith ns t → ReachableWith (name :: ns) (t.add name value anotherscr val_hint).1
  | remove {ns : List CString} {t : SystemImports} (name : CString) :
      ReachableWith ns t → ReachableWith ns (t.remove name)
  | RemoveScriptExports {ns : List CString} {t : SystemImports} (inst : InstancePtr) :
      ReachableWith ns t → ReachableWith ns (t.RemoveScriptExports inst)
  | clear {ns : List CString} {t : SystemImports} :
      ReachableWith ns t → ReachableWith ns t.clear

/-- The arguments of one call of `add`. -/
abbrev AddArgs := CString × RuntimeScriptValue × InstancePtr × ScriptValueHint

/-- The table after a sequence of calls of `add`. -/
def addAll : SystemImports → List AddArgs → SystemImports
  | t, [] => t
  | t, a :: l => addAll (t.add a.1 a.2.1 a.2.2.1 a.2.2.2).1 l

/-- None of the calls of `add` in the sequence is a call without an owning module
that is given a name resolving to the index `i` at the time of the call: the only
calls that write to slot `i` when it holds a name. -/
def addAllSpares (i : Nat) : SystemImports → List AddArgs → Bool
  | _, [] => true
  | t, a :: l =>
    decide (¬ (a.2.2.1 = none ∧ t.get_index_of a.1 = some i)) &&
      addAllSpares i (t.add a.1 a.2.1 a.2.2.1 a.2.2.2).1 l

/-- What holds of every table reached with non-empty names only, besides `Inv`: no
key is empty; a slot with a name has a key mapping to it that `get_index_of` accepts
for that name; and a key equal to the name of a slot maps to that slot. -/
def NamedInv (t : SystemImports) : Prop :=
  (∀ e ∈ t.btree, e.1 ≠ []) ∧
  (∀ (s : Nat) (imp : ScriptImport), t.imports[s]? = some imp → imp.Name ≠ [] →
    ∃ k, (k, s) ∈ t.btree ∧ accepts k imp.Name = true) ∧
  (∀ (s : Nat) (imp : ScriptImport), t.imports[s]? = some imp → imp.Name ≠ [] →
    ∀ s', (imp.Name, s') ∈ t.btree → s' = s)

/-- The table after `f` was registered and then registered again as `f^12`. -/
def table_stale : SystemImports :=
  ((empty.add (cstr "f") (some 1) none 0).1.add (cstr "f^12") (some 2) none 0).1

/-- The table after modules `7` and `8` exported `a` and `b` and `c` was registered
natively. -/
def table_owners : SystemImports :=
  (((empty.add (cstr "a") (some 1) (some 7) 0).1.add (cstr "b") (some 2) (some 8) 0).1.add
    (cstr "c") (some 3) none 0).1

/-- The reverse lookup as the specification words it, to be compared with `findName`:
the name of the first entry that is not a tombstone (its name is not empty) and whose
value equals `value`, and the empty name if there is none. -/
def findName_spec (t : SystemImports) (value : RuntimeScriptValue) : CString :=
  match t.imports.find? (fun imp => decide (imp.Name ≠ []) && decide (imp.Value = value)) with
  | some imp => imp.Name
  | none => []

/-- The words of the specification for the names that the strip rule leads to: `b` is
`name` itself, or `name` after removing one or more trailing suffixes, each of which
starts at a `^` within the last 4 characters. -/
inductive StripsTo : CString → CString → Prop
  | refl (name : CString) : StripsTo name name
  | step {name b : CString} (c : Nat) :
      name[c]? = some '^' → c ≥ name.length - 4 → StripsTo (name.take c) b →
      StripsTo name b

/-- The body of `get_index_of` once more, returning with the result the number of
recursive calls made; `none` when `fuel` calls were not enough to return. -/
def get_index_of_calls (btree : IndexMap) : Nat → CString → Option (Option Nat × Nat)
  | 0, _ => none
  | fuel + 1, name =>
    match btree.find name with
    | some it => some (some it.2, 0)
    | none =>
      if name.length > 3 then
        match name.FindCharReverse '^' with
        | some c =>
          if c ≥ name.length - 4 then
            (get_index_of_calls btree fuel (name.Left c)).map (fun r => (r.1, r.2 + 1))
          else some (get_index_of_exported btree name, 0)
        | none => some (get_index_of_exported btree name, 0)
      else some (get_index_of_exported btree name, 0)

/-- Subtraction of `size_t` values (64 bits), which wraps around below zero. -/
def size_t_sub (a b : Nat) : Nat := (a + 2 ^ 64 - b % 2 ^ 64) % 2 ^ 64

/-- The table after `f` was registered with value `1` and `g` with the invalid
value, and `f` was removed again. -/
def table_invalid : SystemImports :=
  ((empty.add (cstr "f") (some 1) none 0).1.add (cstr "g") none none 0).1.remove (cstr "f")

/-- The table after module `7` exported the single symbol `ab^x$1`. -/
def table_abx : SystemImports := (empty.add (cstr "ab^x$1") (some 1) (some 7) 0).1

/-- The table after registering the single native symbol `foo`. -/
def table_foo_only : SystemImports := (empty.add (cstr "foo") (some 1) none 0).1

/-- A table in which the keys `foo` and `foo^1` both map to slot `0`, whose name is
`foo^1`: the table after the calls listed. -/
def table_shared : SystemImports :=
  (((((empty.add (cstr "foo^1") (some 1) none 0).1.add (cstr "foo^1^1") (some 2) none 0).1.remove
    (cstr "foo^1")).add (cstr "foo") (some 3) none 0).1.add (cstr "foo^1") (some 4) none 0).1

/-- The last rule of `get_index_of`, with the comparison that checks the key found
(`String::CompareLeft`, not among the sources) taken as the parameter `cmp`. -/
def get_index_of_exported_by (cmp : CString → CString → Int) (btree : IndexMap)
    (name : CString) : Option Nat :=
  let export_name := name ++ ['$']
  match btree.lower_bound export_name with
  | some it => if cmp it.1 export_name = 0 then some it.2 else none
  | none => none

/-- The body of `get_index_of` with the comparison `cmp` as a parameter; for
`CString.CompareLeft` it is `get_index_of_fuel` (`get_index_of_fuel_by_CompareLeft`). -/
def get_index_of_fuel_by (cmp : CString → CString → Int) (btree : IndexMap) :
    Nat → CString → Option Nat
  | 0, _ => none
  | fuel + 1, name =>
    match btree.find name with
    | some it => some it.2
    | none =>
      if name.length > 3 then
        match name.FindCharReverse '^' with
        | some c =>
          if c ≥ name.length - 4 then get_index_of_fuel_by cmp btree fuel (name.Left c)
          else get_index_of_exported_by cmp btree name
        | none => get_index_of_exported_by cmp btree name
      else get_index_of_exported_by cmp btree name

end SystemImports

/-! ## Names: the order of the keys and prefixes -/

namespace CString

theorem cons_lt_cons_iff (a b : Char) (l₁ l₂ : CString) :
    (a :: l₁ : CString) < b :: l₂ ↔ a < b ∨ (a = b ∧ l₁ < l₂) := by
  constructor
  · intro h
    cases h with
    | cons h => exact Or.inr ⟨rfl, h⟩
    | rel h => exact Or.inl h
  · rintro (h | ⟨rfl, h⟩)
    · exact List.Lex.rel h
    · exact List.Lex.cons h

theorem not_lt_nil (l : CString) : ¬ l < ([] : CString) :=
  List.Lex.not_nil_right _ l

/-- A name is not less than any of its prefixes. -/
theorem not_lt_of_isPrefix {p k : CString} (h : p <+: k) : ¬ k < p := by
  induction p generalizing k with
  | nil => exact not_lt_nil k
  | cons a p ih =>
    obtain ⟨r, rfl⟩ := h
    intro hlt
    rw [List.cons_append, cons_lt_cons_iff] at hlt
    rcases hlt with hlt | ⟨-, hlt⟩
    · exact lt_irrefl a hlt
    · exact ih (List.prefix_append p r) hlt

/-- The names that have `p` as a prefix form an initial stretch of the names not less
than `p`. -/
theorem isPrefix_of_between {p k k' : CString} (h₁ : ¬ k' < p) (h₂ : ¬ k < k')
    (h : p <+: k) : p <+: k' := by
  induction p generalizing k k' with
  | nil => exact List.nil_prefix
  | cons a p ih =>
    obtain ⟨r, rfl⟩ := h
    cases k' with
    | nil => exact absurd (List.nil_lt_cons a p) h₁
    | cons b k₂ =>
      rw [cons_lt_cons_iff] at h₁
      rw [List.cons_append, cons_lt_cons_iff] at h₂
      push_neg at h₁ h₂
      have hab : a = b := le_antisymm h₁.1 h₂.1
      subst hab
      have := ih (not_lt.mpr (h₁.2 rfl)) (not_lt.mpr (h₂.2 rfl)) (List.prefix_append p r)
      exact (List.prefix_cons_inj a).mpr this

theorem CompareLeft_eq_zero_iff (s cstr : CString) :
    s.CompareLeft cstr = 0 ↔ cstr <+: s := by
  unfold CompareLeft
  rw [List.prefix_iff_eq_take]
  by_cases h : List.take (List.length cstr) s = cstr
  · simp [h]
  · have h' : ¬ cstr = List.take (List.length cstr) s := fun e => h e.symm
    simp only [h, h', if_false, iff_false]
    split <;> decide

theorem FindCharReverse_lt {s : CString} {c : Char} {i : Nat}
    (h : s.FindCharReverse c = some i) : i < s.length := by
  induction s generalizing i with
  | nil => simp [FindCharReverse] at h
  | cons x xs ih =>
    simp only [FindCharReverse] at h
    split at h
    · next j hj =>
      have := ih hj
      simp only [Option.some.injEq] at h
      simp only [List.length_cons]
      omega
    · split at h
      · simp only [Option.some.injEq] at h
        simp only [List.length_cons]
        omega
      · simp at h

theorem length_Left_lt {s : CString} {c : Char} {i : Nat}
    (h : s.FindCharReverse c = some i) : (s.Left i).length < s.length := by
  have := FindCharReverse_lt h
  simp only [Left, List.length_take]
  omega

end CString

/-! ## The sorted index -/

namespace IndexMap

theorem find_some_mem {m : IndexMap} {key : CString} {e : CString × Nat}
    (h : m.find key = some e) : e ∈ m ∧ e.1 = key := by
  unfold find at h
  have h1 := List.mem_of_find?_eq_some h
  have h2 := List.find?_some h
  exact ⟨h1, by simpa using h2⟩

theorem find_eq_none_iff {m : IndexMap} {key : CString} :
    m.find key = none ↔ ∀ e ∈ m, e.1 ≠ key := by
  unfold find
  simp [List.find?_eq_none]

/-- In a well-formed index the entry of a key is unique, and `find` returns it. -/
theorem find_eq_some_of_mem {m : IndexMap} (hwf : m.WF) {e : CString × Nat}
    (h : e ∈ m) : m.find e.1 = some e := by
  induction m with
  | nil => cases h
  | cons x m ih =>
    unfold WF at hwf
    rw [List.pairwise_cons] at hwf
    rcases List.mem_cons.mp h with rfl | h'
    · simp [find]
    · have hne : x.1 ≠ e.1 := ne_of_lt (hwf.1 e h')
      have := ih hwf.2 h'
      unfold find at this ⊢
      rw [List.find?_cons]
      simp [hne, this]

theorem mem_unique {m : IndexMap} (hwf : m.WF) {k : CString} {i j : Nat}
    (hi : (k, i) ∈ m) (hj : (k, j) ∈ m) : i = j := by
  have h1 := find_eq_some_of_mem hwf hi
  have h2 := find_eq_some_of_mem hwf hj
  simp only at h1 h2
  rw [h1] at h2
  simpa using h2

theorem mem_erase {m : IndexMap} {key : CString} {e : CString × Nat} :
    e ∈ m.erase key ↔ e ∈ m ∧ e.1 ≠ key := by
  simp [erase]

theorem WF_erase {m : IndexMap} (hwf : m.WF) (key : CString) : (m.erase key).WF :=
  List.Pairwise.sublist (List.filter_sublist m) hwf

theorem erase_eq_self {m : IndexMap} {key : CString} (h : ∀ e ∈ m, e.1 ≠ key) :
    m.erase key = m := by
  unfold erase
  rw [List.filter_eq_self]
  intro e he
  simpa using h e he

theorem mem_assign {m : IndexMap} (hwf : m.WF) (key : CString) (ix : Nat)
    (e : CString × Nat) :
    e ∈ m.assign key ix ↔ e = (key, ix) ∨ (e ∈ m ∧ e.1 ≠ key) := by
  induction m with
  | nil => simp [assign]
  | cons x m ih =>
    unfold WF at hwf
    rw [List.pairwise_cons] at hwf
    have ih := ih hwf.2
    unfold assign
    by_cases h1 : key < x.1
    · simp only [h1, if_true, List.mem_cons]
      constructor
      · rintro (h | h | h)
        · exact Or.inl h
        · subst h
          exact Or.inr ⟨Or.inl rfl, ne_of_gt h1⟩
        · exact Or.inr ⟨Or.inr h, ne_of_gt (lt_trans h1 (hwf.1 e h))⟩
      · rintro (h | ⟨h | h, -⟩)
        · exact Or.inl h
        · exact Or.inr (Or.inl h)
        · exact Or.inr (Or.inr h)
    · by_cases h2 : key = x.1
      · rw [if_neg h1, if_pos h2]
        simp only [List.mem_cons]
        constructor
        · rintro (h | h)
          · exact Or.inl h
          · exact Or.inr ⟨Or.inr h, ne_of_gt (h2 ▸ hwf.1 e h)⟩
        · rintro (h | ⟨h | h, hne⟩)
          · exact Or.inl h
          · exact absurd (by rw [h, h2]) hne
          · exact Or.inr h
      · simp only [h1, h2, if_false, List.mem_cons, ih]
        constructor
        · rintro (h | h | ⟨h, hne⟩)
          · subst h
            exact Or.inr ⟨Or.inl rfl, fun e => h2 e.symm⟩
          · exact Or.inl h
          · exact Or.inr ⟨Or.inr h, hne⟩
        · rintro (h | ⟨h | h, hne⟩)
          · exact Or.inr (Or.inl h)
          · exact Or.inl h
          · exact Or.inr (Or.inr ⟨h, hne⟩)

theorem WF_assign {m : IndexMap} (hwf : m.WF) (key : CString) (ix : Nat) :
    (m.assign key ix).WF := by
  induction m with
  | nil => simp [assign, WF]
  | cons x m ih =>
    have hwf' := hwf
    unfold WF at hwf
    rw [List.pairwise_cons] at hwf
    have ih := ih hwf.2
    unfold assign
    by_cases h1 : key < x.1
    · simp only [h1, if_true]
      unfold WF
      rw [List.pairwise_cons]
      refine ⟨?_, hwf'⟩
      intro e he
      rcases List.mem_cons.mp he with rfl | he
      · exact h1
      · exact lt_trans h1 (hwf.1 e he)
    · by_cases h2 : key = x.1
      · rw [if_neg h1, if_pos h2]
        unfold WF
        rw [List.pairwise_cons]
        exact ⟨fun e he => h2 ▸ hwf.1 e he, hwf.2⟩
      · simp only [h1, h2, if_false]
        unfold WF
        rw [List.pairwise_cons]
        refine ⟨?_, ih⟩
        intro e he
        rcases (mem_assign hwf.2 key ix e).mp he with rfl | ⟨he, -⟩
        · exact lt_of_le_of_ne (not_lt.mp h1) (fun e => h2 e.symm)
        · exact hwf.1 e he

theorem find_assign_self {m : IndexMap} (hwf : m.WF) (key : CString) (ix : Nat) :
    (m.assign key ix).find key = some (key, ix) :=
  find_eq_some_of_mem (e := (key, ix)) (WF_assign hwf key ix)
    ((mem_assign hwf key ix _).mpr (Or.inl rfl))

/-- What `lower_bound` returns in a well-formed index: the entry with the least key
not less than `key`. -/
theorem lower_bound_eq_some_iff {m : IndexMap} (hwf : m.WF) (key : CString)
    (e : CString × Nat) :
    m.lower_bound key = some e ↔
      e ∈ m ∧ ¬ e.1 < key ∧ ∀ e' ∈ m, ¬ e'.1 < key → e.1 ≤ e'.1 := by
  induction m with
  | nil => simp [lower_bound]
  | cons x m ih =>
    unfold WF at hwf
    rw [List.pairwise_cons] at hwf
    have ih := ih hwf.2
    unfold lower_bound at ih ⊢
    rw [List.find?_cons]
    by_cases hx : x.1 < key
    · simp only [hx, not_true_eq_false, decide_False, ih, List.mem_cons]
      constructor
      · rintro ⟨h1, h2, h3⟩
        refine ⟨Or.inr h1, h2, ?_⟩
        rintro e' (rfl | he') hk
        · exact absurd hx hk
        · exact h3 e' he' hk
      · rintro ⟨h1 | h1, h2, h3⟩
        · subst h1
          exact absurd hx h2
        · exact ⟨h1, h2, fun e' he' hk => h3 e' (Or.inr he') hk⟩
    · simp only [hx, not_false_eq_true, decide_True, Option.some.injEq, List.mem_cons]
      constructor
      · rintro rfl
        refine ⟨Or.inl rfl, hx, ?_⟩
        rintro e' (rfl | he') -
        · exact le_refl _
        · exact le_of_lt (hwf.1 e' he')
      · rintro ⟨h1 | h1, h2, h3⟩
        · exact h1.symm
        · have hle := h3 x (Or.inl rfl) hx
          exact absurd (hwf.1 e h1) (not_lt.mpr hle)

theorem lower_bound_eq_none_iff {m : IndexMap} (key : CString) :
    m.lower_bound key = none ↔ ∀ e ∈ m, e.1 < key := by
  unfold lower_bound
  simp [List.find?_eq_none]

end IndexMap

namespace SystemImports

/-! ## Name resolution -/

theorem get_index_of_fuel_eq (btree : IndexMap) (fuel : Nat) (name : CString)
    (h : name.length < fuel) :
    get_index_of_fuel btree fuel name = get_index_of_fuel btree (name.length + 1) name := by
  induction fuel using Nat.strong_induction_on generalizing name with
  | _ fuel ih =>
    cases fuel with
    | zero => omega
    | succ fuel =>
      unfold get_index_of_fuel
      cases btree.find name with
      | some it => rfl
      | none =>
        simp only
        split
        · cases hc : name.FindCharReverse '^' with
          | none => rfl
          | some c =>
            simp only
            split
            · have hlt := CString.length_Left_lt hc
              by_cases hf : fuel = (name.Left c).length + 1
              · subst hf
                rw [ih (name.length) (by omega) (name.Left c) hlt]
              · rw [ih fuel (by omega) (name.Left c) (by omega),
                  ih (name.length) (by omega) (name.Left c) hlt]
            · rfl
        · rfl

/-- The recursive equation of `get_index_of`, as the source states it. -/
theorem get_index_of_eq (t : SystemImports) (name : CString) :
    t.get_index_of name =
      match t.btree.find name with
      | some it => some it.2
      | none =>
        if name.length > 3 then
          match name.FindCharReverse '^' with
          | some c =>
            if c ≥ name.length - 4 then t.get_index_of (name.Left c)
            else get_index_of_exported t.btree name
          | none => get_index_of_exported t.btree name
        else get_index_of_exported t.btree name := by
  unfold get_index_of
  conv_lhs => unfold get_index_of_fuel
  cases t.btree.find name with
  | some it => rfl
  | none =>
    simp only
    split
    · cases hc : name.FindCharReverse '^' with
      | none => rfl
      | some c =>
        simp only
        split
        · exact get_index_of_fuel_eq _ _ _ (CString.length_Left_lt hc)
        · rfl
    · rfl

theorem get_index_of_exported_eq_some_iff {btree : IndexMap} (hwf : btree.WF)
    (name : CString) (i : Nat) :
    get_index_of_exported btree name = some i ↔
      ∃ k, (k, i) ∈ btree ∧ name ++ ['$'] <+: k ∧
        ∀ e ∈ btree, name ++ ['$'] <+: e.1 → k ≤ e.1 := by
  unfold get_index_of_exported
  simp only
  cases hlb : btree.lower_bound (name ++ ['$']) with
  | none =>
    simp only
    constructor
    · intro h
      cases h
    · rintro ⟨k, hk, hp, -⟩
      rw [IndexMap.lower_bound_eq_none_iff] at hlb
      exact absurd (hlb _ hk) (CString.not_lt_of_isPrefix hp)
  | some it =>
    obtain ⟨hmem, hge, hmin⟩ := (IndexMap.lower_bound_eq_some_iff hwf _ _).mp hlb
    simp only
    by_cases hp : name ++ ['$'] <+: it.1
    · rw [if_pos ((CString.CompareLeft_eq_zero_iff _ _).mpr hp)]
      simp only [Option.some.injEq]
      constructor
      · rintro rfl
        exact ⟨it.1, hmem, hp, fun e he hpe =>
          hmin e he (CString.not_lt_of_isPrefix hpe)⟩
      · rintro ⟨k, hk, hpk, hkmin⟩
        have h1 : k ≤ it.1 := hkmin it hmem hp
        have h2 : it.1 ≤ k := hmin (k, i) hk (CString.not_lt_of_isPrefix hpk)
        have hk' : k = it.1 := le_antisymm h1 h2
        subst hk'
        exact IndexMap.mem_unique hwf hmem hk
    · rw [if_neg (fun h => hp ((CString.CompareLeft_eq_zero_iff _ _).mp h))]
      constructor
      · intro h
        cases h
      · rintro ⟨k, hk, hpk, -⟩
        have h2 : it.1 ≤ k := hmin (k, i) hk (CString.not_lt_of_isPrefix hpk)
        exact absurd (CString.isPrefix_of_between hge (not_lt.mpr h2) hpk) hp

theorem get_index_of_exported_eq_none_iff {btree : IndexMap} (hwf : btree.WF)
    (name : CString) :
    get_index_of_exported btree name = none ↔
      ∀ e ∈ btree, ¬ name ++ ['$'] <+: e.1 := by
  constructor
  · intro h e he hp
    -- the least key with the prefix would be found
    have hex : ∃ i, get_index_of_exported btree name = some i := by
      unfold get_index_of_exported
      simp only
      cases hlb : btree.lower_bound (name ++ ['$']) with
      | none =>
        rw [IndexMap.lower_bound_eq_none_iff] at hlb
        exact absurd (hlb _ he) (CString.not_lt_of_isPrefix hp)
      | some it =>
        obtain ⟨hmem, hge, hmin⟩ := (IndexMap.lower_bound_eq_some_iff hwf _ _).mp hlb
        have h2 : it.1 ≤ e.1 := hmin e he (CString.not_lt_of_isPrefix hp)
        have := CString.isPrefix_of_between hge (not_lt.mpr h2) hp
        simp only
        rw [if_pos ((CString.CompareLeft_eq_zero_iff _ _).mpr this)]
        exact ⟨_, rfl⟩
    obtain ⟨i, hi⟩ := hex
    rw [h] at hi
    cases hi
  · intro h
    cases hex : get_index_of_exported btree name with
    | none => rfl
    | some i =>
      obtain ⟨k, hk, hp, -⟩ := (get_index_of_exported_eq_some_iff hwf name i).mp hex
      exact absurd hp (h _ hk)

theorem get_index_of_exported_mem {btree : IndexMap} {name : CString} {i : Nat}
    (h : get_index_of_exported btree name = some i) : ∃ k, (k, i) ∈ btree := by
  unfold get_index_of_exported at h
  simp only at h
  cases hlb : btree.lower_bound (name ++ ['$']) with
  | none => rw [hlb] at h; cases h
  | some it =>
    rw [hlb] at h
    simp only at h
    split at h
    · simp only [Option.some.injEq] at h
      subst h
      exact ⟨it.1, List.mem_of_find?_eq_some hlb⟩
    · cases h

/-- Whatever `get_index_of` returns is an index stored in the sorted index. -/
theorem get_index_of_mem (t : SystemImports) (name : CString) (i : Nat)
    (h : t.get_index_of name = some i) : ∃ k, (k, i) ∈ t.btree := by
  generalize hn : name.length = n
  induction n using Nat.strong_induction_on generalizing name with
  | _ n ih =>
    rw [get_index_of_eq] at h
    cases hf : t.btree.find name with
    | some it =>
      rw [hf] at h
      simp only [Option.some.injEq] at h
      subst h
      exact ⟨it.1, (IndexMap.find_some_mem hf).1⟩
    | none =>
      rw [hf] at h
      simp only at h
      split at h
      · cases hc : name.FindCharReverse '^' with
        | none =>
          rw [hc] at h
          exact get_index_of_exported_mem h
        | some c =>
          rw [hc] at h
          simp only at h
          split at h
          · exact ih _ (hn ▸ CString.length_Left_lt hc) _ h rfl
          · exact get_index_of_exported_mem h
      · exact get_index_of_exported_mem h

theorem get_index_of_of_find {t : SystemImports} {name : CString} {e : CString × Nat}
    (h : t.btree.find name = some e) : t.get_index_of name = some e.2 := by
  rw [get_index_of_eq, h]

/-- The index depends on the sorted index only. -/
theorem get_index_of_congr {t t' : SystemImports} (h : t.btree = t'.btree)
    (name : CString) : t.get_index_of name = t'.get_index_of name := by
  unfold get_index_of
  rw [h]

/-! ## What every reachable table satisfies -/

theorem findIdx_le (l : List ScriptImport) :
    l.findIdx (fun imp => imp.Name = []) ≤ l.length := List.findIdx_le_length _

theorem Inv_empty : Inv empty := by
  refine ⟨?_, ?_⟩
  · simp [empty, IndexMap.WF]
  · intro e he
    simp [empty] at he

theorem Inv_add {t : SystemImports} (h : Inv t) (name : CString)
    (value : RuntimeScriptValue) (anotherscr : InstancePtr) (val_hint : ScriptValueHint) :
    Inv (t.add name value anotherscr val_hint).1 := by
  obtain ⟨hwf, hb⟩ := h
  unfold add
  cases hg : t.get_index_of name with
  | some ixof =>
    simp only
    split
    · exact ⟨hwf, fun e he => by simpa using hb e he⟩
    · exact ⟨hwf, hb⟩
  | none =>
    simp only
    have hle := findIdx_le t.imports
    split
    · next heq =>
      refine ⟨IndexMap.WF_assign hwf _ _, ?_⟩
      intro e he
      simp only [List.length_append, List.length_singleton]
      rcases (IndexMap.mem_assign hwf _ _ e).mp he with rfl | ⟨he, -⟩
      · simp only
        omega
      · have := hb e he
        omega
    · next hne =>
      refine ⟨IndexMap.WF_assign hwf _ _, ?_⟩
      intro e he
      simp only [List.length_set]
      rcases (IndexMap.mem_assign hwf _ _ e).mp he with rfl | ⟨he, -⟩
      · simp only
        omega
      · exact hb e he

theorem Inv_remove {t : SystemImports} (h : Inv t) (name : CString) :
    Inv (t.remove name) := by
  obtain ⟨hwf, hb⟩ := h
  unfold remove
  cases hg : t.get_index_of name with
  | none => exact ⟨hwf, hb⟩
  | some idx =>
    refine ⟨IndexMap.WF_erase hwf _, ?_⟩
    intro e he
    simp only [List.length_set]
    exact hb e (IndexMap.mem_erase.mp he).1

theorem RemoveScriptExports_loop_length (inst : InstancePtr) (l : List ScriptImport)
    (btree : IndexMap) : (RemoveScriptExports_loop inst l btree).1.length = l.length := by
  induction l generalizing btree with
  | nil => rfl
  | cons imp rest ih =>
    unfold RemoveScriptExports_loop
    split
    · simp [ih]
    · split <;> simp [ih]

theorem RemoveScriptExports_loop_sublist (inst : InstancePtr) (l : List ScriptImport)
    (btree : IndexMap) : (RemoveScriptExports_loop inst l btree).2.Sublist btree := by
  induction l generalizing btree with
  | nil => exact List.Sublist.refl _
  | cons imp rest ih =>
    unfold RemoveScriptExports_loop
    split
    · exact ih btree
    · split
      · exact (ih _).trans (List.filter_sublist _)
      · exact ih btree

theorem Inv_RemoveScriptExports {t : SystemImports} (h : Inv t) (inst : InstancePtr) :
    Inv (t.RemoveScriptExports inst) := by
  obtain ⟨hwf, hb⟩ := h
  unfold RemoveScriptExports
  split
  · exact ⟨hwf, hb⟩
  · have hs := RemoveScriptExports_loop_sublist inst t.imports t.btree
    refine ⟨List.Pairwise.sublist hs hwf, ?_⟩
    intro e he
    simp only [RemoveScriptExports_loop_length]
    exact hb e (hs.subset he)

theorem Inv_clear (t : SystemImports) : Inv t.clear := Inv_empty

theorem Reachable.inv {t : SystemImports} (h : Reachable t) : Inv t := by
  induction h with
  | empty => exact Inv_empty
  | add name value anotherscr val_hint _ ih => exact Inv_add ih name value anotherscr val_hint
  | remove name _ ih => exact Inv_remove ih name
  | RemoveScriptExports inst _ ih => exact Inv_RemoveScriptExports ih inst
  | clear _ _ => exact Inv_clear _

/-- In a reachable table a resolved index is a position of the sequence. -/
theorem get_index_of_lt {t : SystemImports} (h : Inv t) {name : CString} {i : Nat}
    (hg : t.get_index_of name = some i) : i < t.imports.length := by
  obtain ⟨k, hk⟩ := get_index_of_mem t name i hg
  exact h.2 _ hk

/-! ## Rules of `get_index_of` -/

theorem FindCharReverse_append_cons (b d : CString) (c : Char) (h : c ∉ d) :
    CString.FindCharReverse (b ++ c :: d) c = some b.length := by
  have hd : CString.FindCharReverse d c = none := by
    induction d with
    | nil => rfl
    | cons x d ih =>
      simp only [List.mem_cons, not_or] at h
      simp only [CString.FindCharReverse, ih h.2]
      rw [if_neg (fun e => h.1 e.symm)]
  induction b with
  | nil => simp [CString.FindCharReverse, hd]
  | cons x b ih => simp [CString.FindCharReverse, ih]

theorem FindCharReverse_split {s : CString} {c : Char} {i : Nat}
    (h : s.FindCharReverse c = some i) : s = s.take i ++ c :: s.drop (i + 1) := by
  induction s generalizing i with
  | nil => simp [CString.FindCharReverse] at h
  | cons x xs ih =>
    simp only [CString.FindCharReverse] at h
    split at h
    · next j hj =>
      simp only [Option.some.injEq] at h
      subst h
      simp only [List.take_succ_cons, List.drop_succ_cons, List.cons_append]
      rw [← ih hj]
    · split at h
      · next hx =>
        simp only [Option.some.injEq] at h
        subst h
        simp [hx]
      · simp at h

/-- A table whose only key continues the queried name with `^` does not resolve it. -/
theorem get_index_of_none_of_only_longer (imports : List ScriptImport) (i : Nat)
    (m s : CString) :
    get_index_of ⟨imports, [(m ++ '^' :: s, i)]⟩ m = none := by
  generalize hn : m.length = n
  induction n using Nat.strong_induction_on generalizing m s with
  | _ n ih =>
    have hwf : IndexMap.WF [(m ++ '^' :: s, i)] := by simp [IndexMap.WF]
    have hfind : IndexMap.find [(m ++ '^' :: s, i)] m = none := by
      rw [IndexMap.find_eq_none_iff]
      intro e he
      simp only [List.mem_singleton] at he
      subst he
      intro heq
      have := congrArg List.length heq
      simp at this
    have hexp : get_index_of_exported [(m ++ '^' :: s, i)] m = none := by
      rw [get_index_of_exported_eq_none_iff hwf]
      intro e he
      simp only [List.mem_singleton] at he
      subst he
      simp only
      rw [List.prefix_append_right_inj]
      intro hp
      exact absurd (List.cons_prefix_cons.mp hp).1 (by decide)
    rw [get_index_of_eq]
    simp only [hfind]
    split
    · cases hc : m.FindCharReverse '^' with
      | none => exact hexp
      | some c =>
        simp only
        split
        · have hsplit := FindCharReverse_split hc
          have hkey : m ++ '^' :: s
              = m.Left c ++ '^' :: (m.drop (c + 1) ++ '^' :: s) := by
            conv_lhs => rw [hsplit]
            simp [CString.Left]
          rw [hkey]
          exact ih _ (hn ▸ CString.length_Left_lt hc) _ _ rfl
        · exact hexp
    · exact hexp

/-! ## Registration -/

/-- The slot scan of `add`: every slot before the index found has a name, and the
index found is either the length of the sequence or a slot without a name. -/
theorem findIdx_free_spec (l : List ScriptImport) :
    (∀ j, j < l.findIdx (fun imp => imp.Name = []) →
        ∃ e, l[j]? = some e ∧ e.Name ≠ []) ∧
      (l.findIdx (fun imp => imp.Name = []) = l.length ∨
        ∃ e, l[l.findIdx (fun imp => imp.Name = [])]? = some e ∧ e.Name = []) := by
  induction l with
  | nil => simp
  | cons x l ih =>
    rw [List.findIdx_cons]
    by_cases hx : x.Name = []
    · simp [hx]
    · simp only [hx, decide_False, cond_false, List.length_cons, add_left_inj]
      refine ⟨?_, ?_⟩
      · intro j hj
        cases j with
        | zero => exact ⟨x, by simp, hx⟩
        | succ j =>
          obtain ⟨e, he, hne⟩ := ih.1 j (by omega)
          exact ⟨e, by simpa using he, hne⟩
      · rcases ih.2 with h | ⟨e, he, hne⟩
        · exact Or.inl h
        · exact Or.inr ⟨e, by simpa using he, hne⟩

theorem add_of_resolved {t : SystemImports} {name : CString} {ixof : Nat}
    (hg : t.get_index_of name = some ixof) (value : RuntimeScriptValue)
    (anotherscr : InstancePtr) (val_hint : ScriptValueHint) :
    t.add name value anotherscr val_hint =
      if anotherscr = none then
        (⟨t.imports.set ixof ⟨name, value, anotherscr, val_hint⟩, t.btree⟩, ixof)
      else (t, ixof) := by
  unfold add
  rw [hg]

theorem add_of_unresolved {t : SystemImports} {name : CString}
    (hg : t.get_index_of name = none) (value : RuntimeScriptValue)
    (anotherscr : InstancePtr) (val_hint : ScriptValueHint) :
    t.add name value anotherscr val_hint =
      if t.imports.findIdx (fun imp => imp.Name = []) = t.imports.length then
        (⟨t.imports ++ [⟨name, value, anotherscr, val_hint⟩],
          t.btree.assign name (t.imports.findIdx (fun imp => imp.Name = []))⟩,
          t.imports.findIdx (fun imp => imp.Name = []))
      else
        (⟨t.imports.set (t.imports.findIdx (fun imp => imp.Name = []))
            ⟨name, value, anotherscr, val_hint⟩,
          t.btree.assign name (t.imports.findIdx (fun imp => imp.Name = []))⟩,
          t.imports.findIdx (fun imp => imp.Name = [])) := by
  unfold add
  rw [hg]

/-- After `add`, the name resolves to the index that `add` returned. -/
theorem get_index_of_add_self {t : SystemImports} (hwf : t.btree.WF) (name : CString)
    (value : RuntimeScriptValue) (anotherscr : InstancePtr) (val_hint : ScriptValueHint) :
    (t.add name value anotherscr val_hint).1.get_index_of name =
      some (t.add name value anotherscr val_hint).2 := by
  cases hg : t.get_index_of name with
  | some ixof =>
    rw [add_of_resolved hg]
    split
    · simp only
      rw [← hg]
      exact get_index_of_congr rfl name
    · exact hg
  | none =>
    rw [add_of_unresolved hg]
    split
    · exact get_index_of_of_find (t := ⟨_, t.btree.assign name _⟩)
        (IndexMap.find_assign_self hwf _ _)
    · exact get_index_of_of_find (t := ⟨_, t.btree.assign name _⟩)
        (IndexMap.find_assign_self hwf _ _)

/-- After a registration that writes (a native one, or one of an unresolved name),
the slot at the returned index holds the registered entry. -/
theorem getElem?_add_self {t : SystemImports} (hinv : Inv t) (name : CString)
    (value : RuntimeScriptValue) (anotherscr : InstancePtr) (val_hint : ScriptValueHint)
    (h : anotherscr = none ∨ t.get_index_of name = none) :
    (t.add name value anotherscr val_hint).1.imports[
        (t.add name value anotherscr val_hint).2]? =
      some ⟨name, value, anotherscr, val_hint⟩ := by
  cases hg : t.get_index_of name with
  | some ixof =>
    have ha : anotherscr = none := by
      rcases h with h | h
      · exact h
      · rw [hg] at h; cases h
    rw [add_of_resolved hg, if_pos ha]
    simp only
    exact List.getElem?_set_self (get_index_of_lt hinv hg)
  | none =>
    rw [add_of_unresolved hg]
    have hle := findIdx_le t.imports
    split
    · next heq =>
      simp only
      rw [heq]
      simp
    · next hne =>
      simp only
      exact List.getElem?_set_self (by omega)

theorem getByName_eq {t : SystemImports} {name : CString} {i : Nat} {e : ScriptImport}
    (hg : t.get_index_of name = some i) (he : t.imports[i]? = some e) :
    t.getByName name = some e := by
  unfold getByName
  rw [hg]
  simp [he]

/-- A native registration is found again under its name, with what was registered. -/
theorem getByName_add_native {t : SystemImports} (hinv : Inv t) (name : CString)
    (value : RuntimeScriptValue) (val_hint : ScriptValueHint) :
    (t.add name value none val_hint).1.getByName name =
      some ⟨name, value, none, val_hint⟩ :=
  getByName_eq (get_index_of_add_self hinv.1 name value none val_hint)
    (getElem?_add_self hinv name value none val_hint (Or.inl rfl))

theorem add_snd_of_resolved {t : SystemImports} {name : CString} {ixof : Nat}
    (hg : t.get_index_of name = some ixof) (value : RuntimeScriptValue)
    (anotherscr : InstancePtr) (val_hint : ScriptValueHint) :
    (t.add name value anotherscr val_hint).2 = ixof := by
  rw [add_of_resolved hg]
  split <;> rfl

/-! ## Removal -/

/-- A name that is not a key and that the strip rule does not apply to is resolved by
the last rule alone. -/
theorem get_index_of_eq_exported {t : SystemImports} {n : CString}
    (hkey : ∀ e ∈ t.btree, e.1 ≠ n)
    (hns : ¬ (n.length > 3 ∧ ∃ c, n.FindCharReverse '^' = some c ∧ c ≥ n.length - 4)) :
    t.get_index_of n = get_index_of_exported t.btree n := by
  rw [get_index_of_eq t n, IndexMap.find_eq_none_iff.mpr hkey]
  simp only
  split
  · next hlen =>
    cases hc : n.FindCharReverse '^' with
    | none => rfl
    | some c =>
      simp only
      split
      · next hin => exact absurd ⟨hlen, c, hc, hin⟩ hns
      · rfl
  · rfl

theorem remove_of_resolved {t : SystemImports} {name : CString} {idx : Nat}
    (hg : t.get_index_of name = some idx) :
    t.remove name =
      ⟨t.imports.set idx default, t.btree.erase (t.imports.getD idx default).Name⟩ := by
  unfold remove
  rw [hg]

theorem remove_of_unresolved {t : SystemImports} {name : CString}
    (hg : t.get_index_of name = none) : t.remove name = t := by
  unfold remove
  rw [hg]

/-- Removing a key stored under its own name leaves a table in which the name does
not resolve, when neither fallback rule finds anything for it. -/
theorem get_index_of_remove_key {t : SystemImports} (hwf : t.btree.WF) {n : CString}
    {i : Nat} {e : ScriptImport} (hkey : (n, i) ∈ t.btree)
    (hslot : t.imports[i]? = some e) (hname : e.Name = n)
    (hns : ¬ (n.length > 3 ∧ ∃ c, n.FindCharReverse '^' = some c ∧ c ≥ n.length - 4))
    (hnx : ∀ e ∈ t.btree, ¬ n ++ ['$'] <+: e.1) :
    (t.remove n).btree = t.btree.erase n ∧ (t.remove n).get_index_of n = none := by
  have hres : t.get_index_of n = some i :=
    get_index_of_of_find (IndexMap.find_eq_some_of_mem hwf hkey)
  have hbt : (t.remove n).btree = t.btree.erase n := by
    rw [remove_of_resolved hres]
    simp [hslot, hname]
  refine ⟨hbt, ?_⟩
  have hkey' : ∀ e ∈ (t.remove n).btree, e.1 ≠ n := by
    intro e he
    rw [hbt] at he
    exact (IndexMap.mem_erase.mp he).2
  rw [get_index_of_eq_exported hkey' hns, hbt,
    get_index_of_exported_eq_none_iff (IndexMap.WF_erase hwf n)]
  intro e he
  exact hnx e (IndexMap.mem_erase.mp he).1

/-! ## The loop of `RemoveScriptExports` -/

theorem RemoveScriptExports_loop_fst (inst : InstancePtr) (l : List ScriptImport)
    (btree : IndexMap) :
    (RemoveScriptExports_loop inst l btree).1 = l.map (RemoveScriptExports_entry inst) := by
  induction l generalizing btree with
  | nil => rfl
  | cons imp rest ih =>
    unfold RemoveScriptExports_loop
    simp only [List.map_cons, RemoveScriptExports_entry]
    split
    · simp only [ih]
    · split
      · simp only [ih]
      · simp only [ih]

theorem mem_RemoveScriptExports_loop_snd (inst : InstancePtr) (l : List ScriptImport)
    (btree : IndexMap) (e : CString × Nat) :
    e ∈ (RemoveScriptExports_loop inst l btree).2 ↔
      e ∈ btree ∧ ∀ imp ∈ l, imp.Name ≠ [] → imp.InstancePtr = inst → e.1 ≠ imp.Name := by
  induction l generalizing btree with
  | nil => simp [RemoveScriptExports_loop]
  | cons imp rest ih =>
    unfold RemoveScriptExports_loop
    split
    · next hn =>
      simp only [ih, List.mem_cons, forall_eq_or_imp]
      constructor
      · rintro ⟨h1, h2⟩
        exact ⟨h1, fun h => absurd hn h, h2⟩
      · rintro ⟨h1, -, h2⟩
        exact ⟨h1, h2⟩
    · next hn =>
      split
      · next ho =>
        simp only [ih, List.mem_cons, forall_eq_or_imp, IndexMap.mem_erase]
        constructor
        · rintro ⟨⟨h1, h3⟩, h2⟩
          exact ⟨h1, fun _ _ => h3, h2⟩
        · rintro ⟨h1, h3, h2⟩
          exact ⟨⟨h1, h3 hn ho⟩, h2⟩
      · next ho =>
        simp only [ih, List.mem_cons, forall_eq_or_imp]
        constructor
        · rintro ⟨h1, h2⟩
          exact ⟨h1, fun _ h => absurd h ho, h2⟩
        · rintro ⟨h1, -, h2⟩
          exact ⟨h1, h2⟩

/-- The loop changes nothing when no entry with a name is owned by `inst`. -/
theorem RemoveScriptExports_loop_eq_self (inst : InstancePtr) (l : List ScriptImport)
    (btree : IndexMap)
    (h : ∀ imp ∈ l, imp.Name ≠ [] → imp.InstancePtr ≠ inst) :
    RemoveScriptExports_loop inst l btree = (l, btree) := by
  induction l generalizing btree with
  | nil => rfl
  | cons imp rest ih =>
    have ih := ih btree (fun x hx => h x (List.mem_cons_of_mem _ hx))
    unfold RemoveScriptExports_loop
    split
    · simp only [ih]
    · next hn =>
      rw [if_neg (h imp (List.mem_cons_self _ _) hn)]
      simp only [ih]

theorem RemoveScriptExports_of_some (t : SystemImports) (a : Nat) :
    t.RemoveScriptExports (some a) =
      ⟨t.imports.map (RemoveScriptExports_entry (some a)),
        (RemoveScriptExports_loop (some a) t.imports t.btree).2⟩ := by
  unfold RemoveScriptExports
  simp only [reduceCtorEq, if_false, RemoveScriptExports_loop_fst]

theorem RemoveScriptExports_none (t : SystemImports) : t.RemoveScriptExports none = t := by
  unfold RemoveScriptExports
  simp

/-! ## The keys that `get_index_of` accepts -/

theorem get_index_of_exported_prefix {btree : IndexMap} {name : CString} {i : Nat}
    (h : get_index_of_exported btree name = some i) :
    ∃ k, (k, i) ∈ btree ∧ name ++ ['$'] <+: k := by
  unfold get_index_of_exported at h
  simp only at h
  cases hlb : btree.lower_bound (name ++ ['$']) with
  | none => rw [hlb] at h; cases h
  | some it =>
    rw [hlb] at h
    simp only at h
    split at h
    · next hc =>
      simp only [Option.some.injEq] at h
      subst h
      exact ⟨it.1, List.mem_of_find?_eq_some hlb, (CString.CompareLeft_eq_zero_iff _ _).mp hc⟩
    · cases h

/-- Whatever `get_index_of` returns is stored under a key that it accepts for the
name. -/
theorem get_index_of_fuel_accepts (btree : IndexMap) (fuel : Nat) (name : CString)
    (i : Nat) (h : get_index_of_fuel btree fuel name = some i) :
    ∃ k, (k, i) ∈ btree ∧ accepts_fuel k fuel name = true := by
  induction fuel generalizing name with
  | zero => simp [get_index_of_fuel] at h
  | succ fuel ih =>
    unfold get_index_of_fuel at h
    unfold accepts_fuel
    cases hf : btree.find name with
    | some it =>
      rw [hf] at h
      simp only [Option.some.injEq] at h
      subst h
      obtain ⟨hm, hk⟩ := IndexMap.find_some_mem hf
      exact ⟨it.1, hm, by simp [hk]⟩
    | none =>
      rw [hf] at h
      simp only at h
      have hexp : get_index_of_exported btree name = some i →
          ∃ k, (k, i) ∈ btree ∧ decide (name ++ ['$'] <+: k) = true := by
        intro hx
        obtain ⟨k, hk, hp⟩ := get_index_of_exported_prefix hx
        exact ⟨k, hk, by simpa using hp⟩
      split at h
      · next hlen =>
        simp only [hlen, if_true]
        cases hc : name.FindCharReverse '^' with
        | none =>
          rw [hc] at h
          obtain ⟨k, hk, hp⟩ := hexp h
          exact ⟨k, hk, by simp only [hp, Bool.or_true]⟩
        | some c =>
          rw [hc] at h
          simp only at h ⊢
          split at h
          · next hin =>
            obtain ⟨k, hk, hp⟩ := ih _ h
            exact ⟨k, hk, by simp only [hin, if_true, hp, Bool.or_true]⟩
          · next hin =>
            obtain ⟨k, hk, hp⟩ := hexp h
            exact ⟨k, hk, by simp only [hin, if_false, hp, Bool.or_true]⟩
      · next hlen =>
        obtain ⟨k, hk, hp⟩ := hexp h
        exact ⟨k, hk, by simp only [hlen, if_false, hp, Bool.or_true]⟩

theorem get_index_of_accepts {t : SystemImports} {name : CString} {i : Nat}
    (h : t.get_index_of name = some i) :
    ∃ k, (k, i) ∈ t.btree ∧ accepts k name = true :=
  get_index_of_fuel_accepts t.btree _ name i h

/-- A name resolves as soon as the index holds a key that `get_index_of` accepts
for it. -/
theorem get_index_of_fuel_ne_none {btree : IndexMap} (hwf : btree.WF) (fuel : Nat)
    (name : CString) (k : CString) (s : Nat) (hk : (k, s) ∈ btree)
    (ha : accepts_fuel k fuel name = true) :
    get_index_of_fuel btree fuel name ≠ none := by
  induction fuel generalizing name with
  | zero => simp [accepts_fuel] at ha
  | succ fuel ih =>
    unfold get_index_of_fuel
    unfold accepts_fuel at ha
    cases hf : btree.find name with
    | some it => simp
    | none =>
      simp only
      have hne : k ≠ name := by
        intro heq
        rw [IndexMap.find_eq_none_iff] at hf
        exact hf (k, s) hk heq
      simp only [hne, decide_False, Bool.false_or] at ha
      have hexp : decide (name ++ ['$'] <+: k) = true →
          get_index_of_exported btree name ≠ none := by
        intro hp hnone
        rw [get_index_of_exported_eq_none_iff hwf] at hnone
        exact hnone (k, s) hk (by simpa using hp)
      split
      · next hlen =>
        simp only [hlen, if_true] at ha
        cases hc : name.FindCharReverse '^' with
        | none =>
          rw [hc] at ha
          exact hexp ha
        | some c =>
          rw [hc] at ha
          simp only at ha ⊢
          split
          · next hin =>
            rw [if_pos hin] at ha
            exact ih _ ha
          · next hin =>
            rw [if_neg hin] at ha
            exact hexp ha
      · next hlen =>
        simp only [hlen, if_false] at ha
        exact hexp ha

theorem get_index_of_ne_none {t : SystemImports} (hwf : t.btree.WF) {name k : CString}
    {s : Nat} (hk : (k, s) ∈ t.btree) (ha : accepts k name = true) :
    t.get_index_of name ≠ none :=
  get_index_of_fuel_ne_none hwf _ name k s hk ha

theorem accepts_self (name : CString) : accepts name name = true := by
  unfold accepts accepts_fuel
  simp

/-! ## Tables reached with given names -/

theorem ReachableWith.reachable {ns : List CString} {t : SystemImports}
    (h : ReachableWith ns t) : Reachable t := by
  induction h with
  | empty => exact Reachable.empty
  | add name value anotherscr val_hint _ ih => exact Reachable.add _ _ _ _ ih
  | remove name _ ih => exact Reachable.remove _ ih
  | RemoveScriptExports inst _ ih => exact Reachable.RemoveScriptExports _ ih
  | clear _ ih => exact Reachable.clear ih

theorem Reachable.reachableWith {t : SystemImports} (h : Reachable t) :
    ∃ ns, ReachableWith ns t := by
  induction h with
  | empty => exact ⟨[], ReachableWith.empty⟩
  | add name value anotherscr val_hint _ ih =>
    obtain ⟨ns, h⟩ := ih
    exact ⟨name :: ns, ReachableWith.add _ _ _ _ h⟩
  | remove name _ ih =>
    obtain ⟨ns, h⟩ := ih
    exact ⟨ns, ReachableWith.remove _ h⟩
  | RemoveScriptExports inst _ ih =>
    obtain ⟨ns, h⟩ := ih
    exact ⟨ns, ReachableWith.RemoveScriptExports _ h⟩
  | clear _ ih =>
    obtain ⟨ns, h⟩ := ih
    exact ⟨ns, ReachableWith.clear h⟩

theorem mem_btree_add {t : SystemImports} (hwf : t.btree.WF) (name : CString)
    (value : RuntimeScriptValue) (anotherscr : InstancePtr) (val_hint : ScriptValueHint)
    (e : CString × Nat) (he : e ∈ (t.add name value anotherscr val_hint).1.btree) :
    e ∈ t.btree ∨ (e = (name, (t.add name value anotherscr val_hint).2) ∧
      t.get_index_of name = none) := by
  cases hg : t.get_index_of name with
  | some ixof =>
    rw [add_of_resolved hg] at he
    split at he
    · exact Or.inl he
    · exact Or.inl he
  | none =>
    rw [add_of_unresolved hg] at he ⊢
    split at he
    · next heq =>
      rw [if_pos heq]
      rcases (IndexMap.mem_assign hwf _ _ e).mp he with h | ⟨h, -⟩
      · exact Or.inr ⟨h, rfl⟩
      · exact Or.inl h
    · next hne =>
      rw [if_neg hne]
      rcases (IndexMap.mem_assign hwf _ _ e).mp he with h | ⟨h, -⟩
      · exact Or.inr ⟨h, rfl⟩
      · exact Or.inl h

theorem mem_btree_remove {t : SystemImports} (name : CString) (e : CString × Nat)
    (he : e ∈ (t.remove name).btree) : e ∈ t.btree := by
  unfold remove at he
  split at he
  · exact he
  · exact (IndexMap.mem_erase.mp he).1

theorem mem_btree_RemoveScriptExports {t : SystemImports} (inst : InstancePtr)
    (e : CString × Nat) (he : e ∈ (t.RemoveScriptExports inst).btree) : e ∈ t.btree := by
  unfold RemoveScriptExports at he
  split at he
  · exact he
  · exact (RemoveScriptExports_loop_sublist inst t.imports t.btree).subset he

/-- Every key of the sorted index is a name that `add` was given. -/
theorem ReachableWith.keys_subset {ns : List CString} {t : SystemImports}
    (h : ReachableWith ns t) : ∀ e ∈ t.btree, e.1 ∈ ns := by
  induction h with
  | empty =>
    intro e he
    simp [SystemImports.empty] at he
  | @add ns t name value anotherscr val_hint hr ih =>
    intro e he
    rcases mem_btree_add hr.reachable.inv.1 name value anotherscr val_hint e he
      with h | ⟨h, -⟩
    · exact List.mem_cons_of_mem _ (ih e h)
    · rw [h]
      exact List.mem_cons_self _ _
  | remove name _ ih =>
    intro e he
    exact ih e (mem_btree_remove name e he)
  | RemoveScriptExports inst _ ih =>
    intro e he
    exact ih e (mem_btree_RemoveScriptExports inst e he)
  | clear _ _ =>
    intro e he
    simp [SystemImports.clear] at he

/-! ## Slots and keys after `add`, `remove` and `RemoveScriptExports` -/

/-- The slots and the index after the registration of an unresolved name. -/
theorem add_fresh_effect {t : SystemImports} {name : CString}
    (hg : t.get_index_of name = none) (value : RuntimeScriptValue)
    (anotherscr : InstancePtr) (val_hint : ScriptValueHint) :
    (t.add name value anotherscr val_hint).2 =
        t.imports.findIdx (fun imp => imp.Name = []) ∧
      (t.add name value anotherscr val_hint).1.btree =
        t.btree.assign name (t.imports.findIdx (fun imp => imp.Name = [])) ∧
      (t.add name value anotherscr val_hint).1.imports[
          t.imports.findIdx (fun imp => imp.Name = [])]? =
        some ⟨name, value, anotherscr, val_hint⟩ ∧
      ∀ j, j ≠ t.imports.findIdx (fun imp => imp.Name = []) →
        (t.add name value anotherscr val_hint).1.imports[j]? = t.imports[j]? := by
  have hle := findIdx_le t.imports
  rw [add_of_unresolved hg]
  split
  · next heq =>
    refine ⟨rfl, rfl, ?_, ?_⟩
    · simp only
      rw [heq]
      simp
    · intro j hj
      simp only
      rw [heq] at hj
      rcases Nat.lt_or_gt_of_ne hj with h | h
      · exact List.getElem?_append_left h
      · rw [List.getElem?_eq_none (by simp; omega), List.getElem?_eq_none (by omega)]
  · next hne =>
    refine ⟨rfl, rfl, ?_, ?_⟩
    · exact List.getElem?_set_self (by omega)
    · intro j hj
      exact List.getElem?_set_ne (fun h => hj h.symm)

theorem not_key_of_unresolved {t : SystemImports} {name : CString}
    (hg : t.get_index_of name = none) : ∀ e ∈ t.btree, e.1 ≠ name := by
  rw [← IndexMap.find_eq_none_iff]
  cases hf : t.btree.find name with
  | none => rfl
  | some e => rw [get_index_of_of_find hf] at hg; cases hg

theorem get_index_of_key {t : SystemImports} (hwf : t.btree.WF) {name : CString} {i : Nat}
    (h : (name, i) ∈ t.btree) : t.get_index_of name = some i :=
  get_index_of_of_find (IndexMap.find_eq_some_of_mem hwf h)

/-- The slot that the scan of `add` finds is not a slot with a name. -/
theorem findIdx_free_ne {l : List ScriptImport} {s : Nat} {imp : ScriptImport}
    (hs : l[s]? = some imp) (hn : imp.Name ≠ []) :
    s ≠ l.findIdx (fun imp => imp.Name = []) := by
  intro heq
  rcases (findIdx_free_spec l).2 with h | ⟨e, he, hne⟩
  · rw [heq, h, List.getElem?_eq_none (le_refl _)] at hs
    cases hs
  · rw [← heq, hs] at he
    simp only [Option.some.injEq] at he
    subst he
    exact hn hne

theorem RemoveScriptExports_entry_name {inst : InstancePtr} {imp : ScriptImport}
    (h : (RemoveScriptExports_entry inst imp).Name ≠ []) :
    RemoveScriptExports_entry inst imp = imp ∧ imp.Name ≠ [] ∧ imp.InstancePtr ≠ inst := by
  unfold RemoveScriptExports_entry at h ⊢
  by_cases hn : imp.Name = []
  · rw [if_pos hn] at h
    exact absurd hn h
  · rw [if_neg hn] at h ⊢
    by_cases ho : imp.InstancePtr = inst
    · rw [if_pos ho] at h
      exact absurd rfl h
    · rw [if_neg ho]
      exact ⟨rfl, hn, ho⟩

theorem NamedInv_empty : NamedInv empty := by
  refine ⟨?_, ?_, ?_⟩
  · intro e he
    simp [empty] at he
  · intro s imp hs
    simp [empty] at hs
  · intro s imp hs
    simp [empty] at hs

theorem NamedInv_add {t : SystemImports} (hinv : Inv t) (h : NamedInv t)
    {name : CString} (hname : name ≠ []) (value : RuntimeScriptValue)
    (anotherscr : InstancePtr) (val_hint : ScriptValueHint) :
    NamedInv (t.add name value anotherscr val_hint).1 := by
  obtain ⟨h0, h1, h2⟩ := h
  cases hg : t.get_index_of name with
  | some ixof =>
    rw [add_of_resolved hg]
    split
    · have hlt := get_index_of_lt hinv hg
      refine ⟨h0, ?_, ?_⟩
      · intro s imp hs hn
        simp only at hs ⊢
        by_cases heq : ixof = s
        · subst heq
          rw [List.getElem?_set_self hlt] at hs
          simp only [Option.some.injEq] at hs
          subst hs
          exact get_index_of_accepts hg
        · rw [List.getElem?_set_ne heq] at hs
          exact h1 s imp hs hn
      · intro s imp hs hn s' hs'
        simp only at hs hs'
        by_cases heq : ixof = s
        · subst heq
          rw [List.getElem?_set_self hlt] at hs
          simp only [Option.some.injEq] at hs
          subst hs
          have := get_index_of_key hinv.1 hs'
          rw [hg] at this
          simp only [Option.some.injEq] at this
          exact this.symm
        · rw [List.getElem?_set_ne heq] at hs
          exact h2 s imp hs hn s' hs'
    · exact ⟨h0, h1, h2⟩
  | none =>
    obtain ⟨-, hbt, hself, hother⟩ := add_fresh_effect hg value anotherscr val_hint
    have hkey := not_key_of_unresolved hg
    have hfresh : ∀ (s : Nat) (imp : ScriptImport), t.imports[s]? = some imp →
        imp.Name ≠ [] → imp.Name ≠ name := by
      intro s imp hs hn heq
      obtain ⟨k, hk, ha⟩ := h1 s imp hs hn
      rw [heq] at ha
      exact get_index_of_ne_none hinv.1 hk ha hg
    refine ⟨?_, ?_, ?_⟩
    · intro e he
      rw [hbt] at he
      rcases (IndexMap.mem_assign hinv.1 _ _ e).mp he with rfl | ⟨he, -⟩
      · exact hname
      · exact h0 e he
    · intro s imp hs hn
      rw [hbt]
      by_cases hsi : s = t.imports.findIdx (fun imp => imp.Name = [])
      · subst hsi
        rw [hself] at hs
        simp only [Option.some.injEq] at hs
        subst hs
        exact ⟨name, (IndexMap.mem_assign hinv.1 _ _ _).mpr (Or.inl rfl), accepts_self name⟩
      · rw [hother s hsi] at hs
        obtain ⟨k, hk, ha⟩ := h1 s imp hs hn
        exact ⟨k, (IndexMap.mem_assign hinv.1 _ _ _).mpr (Or.inr ⟨hk, hkey _ hk⟩), ha⟩
    · intro s imp hs hn s' hs'
      rw [hbt] at hs'
      by_cases hsi : s = t.imports.findIdx (fun imp => imp.Name = [])
      · subst hsi
        rw [hself] at hs
        simp only [Option.some.injEq] at hs
        subst hs
        rcases (IndexMap.mem_assign hinv.1 _ _ _).mp hs' with h | ⟨h, hne⟩
        · exact (Prod.mk.inj h).2
        · exact absurd rfl hne
      · rw [hother s hsi] at hs
        rcases (IndexMap.mem_assign hinv.1 _ _ _).mp hs' with h | ⟨h, -⟩
        · exact absurd (Prod.mk.inj h).1 (hfresh s imp hs hn)
        · exact h2 s imp hs hn s' h

theorem NamedInv_remove {t : SystemImports} (hinv : Inv t) (h : NamedInv t)
    (name : CString) : NamedInv (t.remove name) := by
  obtain ⟨h0, h1, h2⟩ := h
  cases hg : t.get_index_of name with
  | none =>
    rw [remove_of_unresolved hg]
    exact ⟨h0, h1, h2⟩
  | some idx =>
    have hlt := get_index_of_lt hinv hg
    rw [remove_of_resolved hg]
    have hidx : t.imports[idx]? = some (t.imports.getD idx default) := by
      rw [List.getD_eq_getElem?_getD, List.getElem?_eq_getElem hlt]
      rfl
    refine ⟨?_, ?_, ?_⟩
    · intro e he
      exact h0 e (IndexMap.mem_erase.mp he).1
    · intro s imp hs hn
      simp only at hs ⊢
      by_cases hne : idx = s
      · subst hne
        rw [List.getElem?_set_self hlt] at hs
        simp only [Option.some.injEq] at hs
        subst hs
        exact absurd rfl hn
      · rw [List.getElem?_set_ne hne] at hs
        obtain ⟨k, hk, ha⟩ := h1 s imp hs hn
        refine ⟨k, IndexMap.mem_erase.mpr ⟨hk, ?_⟩, ha⟩
        intro heq
        simp only at heq
        have hk0 : (t.imports.getD idx default).Name ≠ [] := by
          rw [← heq]
          exact h0 _ hk
        rw [heq] at hk
        exact hne (h2 idx _ hidx hk0 s hk).symm
    · intro s imp hs hn s' hs'
      simp only at hs hs'
      by_cases hne : idx = s
      · subst hne
        rw [List.getElem?_set_self hlt] at hs
        simp only [Option.some.injEq] at hs
        subst hs
        exact absurd rfl hn
      · rw [List.getElem?_set_ne hne] at hs
        exact h2 s imp hs hn s' (IndexMap.mem_erase.mp hs').1

theorem NamedInv_RemoveScriptExports {t : SystemImports} (h : NamedInv t)
    (inst : InstancePtr) : NamedInv (t.RemoveScriptExports inst) := by
  obtain ⟨h0, h1, h2⟩ := h
  cases inst with
  | none =>
    rw [RemoveScriptExports_none]
    exact ⟨h0, h1, h2⟩
  | some a =>
    rw [RemoveScriptExports_of_some]
    have hslot : ∀ (s : Nat) (imp : ScriptImport),
        (t.imports.map (RemoveScriptExports_entry (some a)))[s]? = some imp →
        imp.Name ≠ [] → t.imports[s]? = some imp ∧ imp.InstancePtr ≠ some a := by
      intro s imp hs hn
      rw [List.getElem?_map] at hs
      obtain ⟨imp0, h0', he⟩ := Option.map_eq_some'.mp hs
      subst he
      obtain ⟨e1, -, e3⟩ := RemoveScriptExports_entry_name hn
      rw [e1]
      exact ⟨h0', e3⟩
    refine ⟨?_, ?_, ?_⟩
    · intro e he
      exact h0 e ((mem_RemoveScriptExports_loop_snd _ _ _ _).mp he).1
    · intro s imp hs hn
      obtain ⟨hs0, ho⟩ := hslot s imp hs hn
      obtain ⟨k, hk, ha⟩ := h1 s imp hs0 hn
      refine ⟨k, (mem_RemoveScriptExports_loop_snd _ _ _ _).mpr ⟨hk, ?_⟩, ha⟩
      intro imp2 hmem hn2 ho2 heq
      simp only at heq
      obtain ⟨j, hj⟩ := List.getElem?_of_mem hmem
      rw [heq] at hk
      have hsj := h2 j imp2 hj hn2 s hk
      subst hsj
      rw [hj] at hs0
      simp only [Option.some.injEq] at hs0
      subst hs0
      exact ho ho2
    · intro s imp hs hn s' hs'
      obtain ⟨hs0, -⟩ := hslot s imp hs hn
      exact h2 s imp hs0 hn s' ((mem_RemoveScriptExports_loop_snd _ _ _ _).mp hs').1

/-- A table reached by registering non-empty names only keeps names and keys in
step as far as `NamedInv` says. -/
theorem ReachableWith.namedInv {ns : List CString} {t : SystemImports}
    (h : ReachableWith ns t) (hns : ∀ n ∈ ns, n ≠ []) : NamedInv t := by
  induction h with
  | empty => exact NamedInv_empty
  | @add ns t name value anotherscr val_hint hr ih =>
    exact NamedInv_add hr.reachable.inv
      (ih (fun n hn => hns n (List.mem_cons_of_mem _ hn)))
      (hns name (List.mem_cons_self _ _)) value anotherscr val_hint
  | remove name hr ih => exact NamedInv_remove hr.reachable.inv (ih hns) name
  | RemoveScriptExports inst _ ih => exact NamedInv_RemoveScriptExports (ih hns) inst
  | clear _ _ => exact NamedInv_empty

/-! ## Sequences of registrations, and the empty table -/

/-- A registration leaves alone a key mapping to `i` and the entry of slot `i`, when
that slot has a name, unless it is made without an owning module under a name that
resolves to `i`. -/
theorem add_keeps_slot {t : SystemImports} (hinv : Inv t) {n : CString} {i : Nat}
    {e : ScriptImport} (hkey : (n, i) ∈ t.btree) (hslot : t.imports[i]? = some e)
    (hne : e.Name ≠ []) (name : CString) (value : RuntimeScriptValue)
    (anotherscr : InstancePtr) (val_hint : ScriptValueHint)
    (hav : ¬ (anotherscr = none ∧ t.get_index_of name = some i)) :
    (n, i) ∈ (t.add name value anotherscr val_hint).1.btree ∧
      (t.add name value anotherscr val_hint).1.imports[i]? = some e := by
  cases hg : t.get_index_of name with
  | some ixof =>
    rw [add_of_resolved hg]
    split
    · next ho =>
      have hix : ixof ≠ i := fun h => hav ⟨ho, by rw [hg, h]⟩
      exact ⟨hkey, by rw [List.getElem?_set_ne hix]; exact hslot⟩
    · exact ⟨hkey, hslot⟩
  | none =>
    obtain ⟨-, hbt, -, hother⟩ := add_fresh_effect hg value anotherscr val_hint
    refine ⟨?_, ?_⟩
    · rw [hbt]
      exact (IndexMap.mem_assign hinv.1 _ _ _).mpr
        (Or.inr ⟨hkey, not_key_of_unresolved hg _ hkey⟩)
    · rw [hother i (findIdx_free_ne hslot hne)]
      exact hslot

theorem addAll_keeps_slot {t : SystemImports} (hinv : Inv t) {n : CString} {i : Nat}
    {e : ScriptImport} (hkey : (n, i) ∈ t.btree) (hslot : t.imports[i]? = some e)
    (hne : e.Name ≠ []) (l : List AddArgs) (hav : addAllSpares i t l = true) :
    Inv (addAll t l) ∧ (n, i) ∈ (addAll t l).btree ∧ (addAll t l).imports[i]? = some e := by
  induction l generalizing t with
  | nil => exact ⟨hinv, hkey, hslot⟩
  | cons a l ih =>
    simp only [addAllSpares, Bool.and_eq_true, decide_eq_true_eq] at hav
    obtain ⟨h1, h2⟩ := add_keeps_slot hinv hkey hslot hne a.1 a.2.1 a.2.2.1 a.2.2.2 hav.1
    exact ih (Inv_add hinv _ _ _ _) h1 h2 hav.2

theorem getByIndex_eq {t : SystemImports} {i : Nat} {e : ScriptImport}
    (h : t.imports[i]? = some e) : t.getByIndex i = some e := by
  have hlt : i < t.imports.length := by
    by_contra hge
    rw [List.getElem?_eq_none (by omega)] at h
    cases h
  unfold getByIndex
  rw [if_neg (by omega)]
  simp [h]

/-- Nothing resolves in a table with an empty sorted index. -/
theorem get_index_of_nil (imports : List ScriptImport) (name : CString) :
    get_index_of ⟨imports, []⟩ name = none := by
  cases h : get_index_of ⟨imports, []⟩ name with
  | none => rfl
  | some i =>
    obtain ⟨k, hk⟩ := get_index_of_mem _ _ _ h
    simp at hk

/-! ## Lookups by index and by value -/

theorem getByIndex_eq_getElem? (t : SystemImports) (i : Nat) :
    t.getByIndex i = t.imports[i]? := by
  unfold getByIndex
  by_cases h : i ≥ t.imports.length
  · rw [if_pos h, List.getElem?_eq_none h]
  · rw [if_neg h, List.getD_eq_getElem?_getD, List.getElem?_eq_getElem (by omega)]
    rfl

/-- `findName` returns the name of the first entry with the value, whatever its
name. -/
theorem find?_value_eq_of_first (l : List ScriptImport) (v : RuntimeScriptValue)
    (j : Nat) (e : ScriptImport) (hj : l[j]? = some e) (hv : e.Value = v)
    (hfirst : ∀ (j' : Nat) (e' : ScriptImport), j' < j → l[j']? = some e' → e'.Value ≠ v) :
    l.find? (fun imp => imp.Value = v) = some e := by
  induction l generalizing j with
  | nil => simp at hj
  | cons x l ih =>
    cases j with
    | zero =>
      simp only [List.getElem?_cons_zero, Option.some.injEq] at hj
      subst hj
      simp [hv]
    | succ j =>
      have hx : x.Value ≠ v := hfirst 0 x (by omega) (by simp)
      rw [List.find?_cons_of_neg _ (by simpa using hx)]
      refine ih j (by simpa using hj) ?_
      intro j' e' hlt he'
      exact hfirst (j' + 1) e' (by omega) (by simpa using he')

/-- Where no entry without a name has the value, the scan of `findName` and the scan
that skips the entries without a name find the same entry. -/
theorem find?_value_eq_spec (l : List ScriptImport) (v : RuntimeScriptValue)
    (h : ∀ imp ∈ l, imp.Value = v → imp.Name ≠ []) :
    l.find? (fun imp => imp.Value = v) =
      l.find? (fun imp => decide (imp.Name ≠ []) && decide (imp.Value = v)) := by
  induction l with
  | nil => rfl
  | cons x l ih =>
    have ih := ih (fun imp himp => h imp (List.mem_cons_of_mem _ himp))
    by_cases hx : x.Value = v
    · have hn := h x (List.mem_cons_self _ _) hx
      rw [List.find?_cons_of_pos _ (by simpa using hx),
        List.find?_cons_of_pos _ (by simp [hx, hn])]
    · rw [List.find?_cons_of_neg _ (by simpa using hx),
        List.find?_cons_of_neg _ (by simp [hx]), ih]

/-! ## The names that the strip rule leads to -/

theorem FindCharReverse_getElem? {s : CString} {c : Char} {i : Nat}
    (h : s.FindCharReverse c = some i) : s[i]? = some c := by
  have hs := FindCharReverse_split h
  have hlt := CString.FindCharReverse_lt h
  have hlen : (List.take i s).length = i := by
    rw [List.length_take]
    exact Nat.min_eq_left (Nat.le_of_lt hlt)
  rw [hs, List.getElem?_append_right (by rw [hlen]), hlen]
  simp

/-- A key that `get_index_of` accepts for a name is one of the names that the strip
rule leads to, or continues one of them with `$`. -/
theorem accepts_fuel_stripsTo (k : CString) (fuel : Nat) (name : CString)
    (h : accepts_fuel k fuel name = true) :
    ∃ b, StripsTo name b ∧ (k = b ∨ b ++ ['$'] <+: k) := by
  induction fuel generalizing name with
  | zero => simp [accepts_fuel] at h
  | succ fuel ih =>
    unfold accepts_fuel at h
    simp only [Bool.or_eq_true, decide_eq_true_eq] at h
    rcases h with h | h
    · exact ⟨name, StripsTo.refl name, Or.inl h⟩
    · have hexp : decide (name ++ ['$'] <+: k) = true →
          ∃ b, StripsTo name b ∧ (k = b ∨ b ++ ['$'] <+: k) := by
        intro hp
        exact ⟨name, StripsTo.refl name, Or.inr (by simpa using hp)⟩
      split at h
      · cases hc : name.FindCharReverse '^' with
        | none =>
          rw [hc] at h
          exact hexp h
        | some c =>
          rw [hc] at h
          simp only at h
          split at h
          · next hin =>
            obtain ⟨b, hb, hk⟩ := ih _ h
            exact ⟨b, StripsTo.step c (FindCharReverse_getElem? hc) hin hb, hk⟩
          · exact hexp h
      · exact hexp h

/-! ## The number of recursive calls of `get_index_of` -/

theorem count_Left_lt {s : CString} {i : Nat} (h : s.FindCharReverse '^' = some i) :
    (s.Left i).count '^' < s.count '^' := by
  have hs := FindCharReverse_split h
  conv_rhs => rw [hs]
  simp only [CString.Left, List.count_append, List.count_cons_self]
  omega

/-- With more fuel than the name has `^` characters, the body of `get_index_of`
returns, what it returns is `get_index_of`, and it has made no more recursive calls
than the name has `^` characters. -/
theorem get_index_of_calls_spec (btree : IndexMap) (fuel : Nat) (name : CString)
    (h : name.count '^' < fuel) :
    ∃ calls, get_index_of_calls btree fuel name =
        some (get_index_of_fuel btree (name.length + 1) name, calls) ∧
      calls ≤ name.count '^' := by
  induction fuel generalizing name with
  | zero => omega
  | succ fuel ih =>
    unfold get_index_of_calls
    conv => enter [1, calls, 1, 2, 1, 1]; unfold get_index_of_fuel
    cases btree.find name with
    | some it => exact ⟨0, rfl, Nat.zero_le _⟩
    | none =>
      simp only
      split
      · cases hc : name.FindCharReverse '^' with
        | none => exact ⟨0, rfl, Nat.zero_le _⟩
        | some c =>
          simp only
          split
          · have hlt := count_Left_lt hc
            obtain ⟨calls, hcalls, hle⟩ := ih (name.Left c) (by omega)
            refine ⟨calls + 1, ?_, by omega⟩
            rw [hcalls, get_index_of_fuel_eq _ _ _ (CString.length_Left_lt hc)]
            rfl
          · exact ⟨0, rfl, Nat.zero_le _⟩
      · exact ⟨0, rfl, Nat.zero_le _⟩

/-! ## Resolution after `remove`, by the keys that are left -/

/-- A name does not resolve exactly when the index holds no key that `get_index_of`
accepts for it. -/
theorem get_index_of_eq_none_iff {t : SystemImports} (hwf : t.btree.WF) (name : CString) :
    t.get_index_of name = none ↔ ∀ x ∈ t.btree, accepts x.1 name = false := by
  constructor
  · intro hg x hx
    cases ha : accepts x.1 name with
    | false => rfl
    | true => exact absurd hg (get_index_of_ne_none hwf (k := x.1) (s := x.2) hx ha)
  · intro h
    cases hg : t.get_index_of name with
    | none => rfl
    | some i =>
      obtain ⟨k, hk, ha⟩ := get_index_of_accepts hg
      rw [h (k, i) hk] at ha
      cases ha

/-- After `remove` of a name that resolves to slot `i`, the index is the old one
without the key equal to the name of slot `i`, and the name resolves no more exactly
when no other key is one that `get_index_of` accepts for it. -/
theorem get_index_of_remove_eq_none_iff {t : SystemImports} (hwf : t.btree.WF)
    {n : CString} {i : Nat} {e : ScriptImport} (hg : t.get_index_of n = some i)
    (hslot : t.imports[i]? = some e) :
    (t.remove n).btree = t.btree.erase e.Name ∧
      ((t.remove n).get_index_of n = none ↔
        ∀ x ∈ t.btree, x.1 ≠ e.Name → accepts x.1 n = false) := by
  have hbt : (t.remove n).btree = t.btree.erase e.Name := by
    rw [remove_of_resolved hg]
    simp [hslot]
  refine ⟨hbt, ?_⟩
  have hwf' : (t.remove n).btree.WF := by
    rw [hbt]
    exact IndexMap.WF_erase hwf _
  rw [get_index_of_eq_none_iff hwf', hbt]
  constructor
  · intro h x hx hne
    exact h x (IndexMap.mem_erase.mpr ⟨hx, hne⟩)
  · intro h x hx
    obtain ⟨h1, h2⟩ := IndexMap.mem_erase.mp hx
    exact h x h1 h2

theorem getByName_eq_none_iff (t : SystemImports) (n : CString) :
    t.getByName n = none ↔ t.get_index_of n = none := by
  unfold getByName
  cases t.get_index_of n <;> simp

/-! ## The check of the key found by the range match, as a parameter -/

theorem get_index_of_fuel_by_CompareLeft (btree : IndexMap) (fuel : Nat) (name : CString) :
    get_index_of_fuel_by CString.CompareLeft btree fuel name =
      get_index_of_fuel btree fuel name := by
  induction fuel generalizing name with
  | zero => rfl
  | succ fuel ih =>
    unfold get_index_of_fuel_by get_index_of_fuel
    simp only [ih]
    rfl

/-- C1. Exact match wins: in every table (with a well-formed sorted index), a name `n`
that is a key of the sorted index resolves to exactly the index stored under `n`,
whatever other keys exist. -/
theorem get_index_of_exact (t : SystemImports) (hwf : t.btree.WF) (n : CString) (i : Nat)
    (h : (n, i) ∈ t.btree) : t.get_index_of n = some i :=
  get_index_of_of_find (IndexMap.find_eq_some_of_mem hwf h)

/-- Witness of C1: in a table holding `foo`, `foo$1` and `foo^1`, the name `foo^1`
resolves to its own entry. -/
theorem get_index_of_exact_witness :
    table_foo.btree.WF ∧ ((cstr "foo^1"), 0) ∈ table_foo.btree ∧
      table_foo.get_index_of (cstr "foo^1") = some 0 :=
  ⟨by decide, by decide, get_index_of_exact table_foo (by decide) _ _ (by decide)⟩

/-- C2, as claimed, fails: the strip rule is not applied to names of 3 characters or
fewer.  With only `a` registered, `a^1` is not a key and its last `^` lies within its
last 4 characters, yet `a^1` does not resolve although `a` does. -/
theorem get_index_of_strip_short_counterexample :
    ¬ ∀ (t : SystemImports) (n : CString) (c : Nat), t.btree.WF →
      (∀ e ∈ t.btree, e.1 ≠ n) → n.FindCharReverse '^' = some c → c ≥ n.length - 4 →
      t.get_index_of n = t.get_index_of (n.Left c) := by
  intro h
  have := h table_a (cstr "a^1") 1 (by decide) (by decide) (by decide) (by decide)
  revert this
  decide

/-- C2, amended. Native-suffix strip rule: for every table and every name `n` of more
than 3 characters that is not itself a key, if the last `^` of `n` (at position `c`)
lies within the last 4 characters of `n`, then `n` resolves to whatever `n` cut before
that `^` resolves to. -/
theorem get_index_of_strip (t : SystemImports) (n : CString) (c : Nat)
    (hkey : ∀ e ∈ t.btree, e.1 ≠ n) (hlen : n.length > 3)
    (hc : n.FindCharReverse '^' = some c) (hin : c ≥ n.length - 4) :
    t.get_index_of n = t.get_index_of (n.Left c) := by
  rw [get_index_of_eq t n, IndexMap.find_eq_none_iff.mpr hkey]
  simp only [hlen, if_true, hc, hin]

/-- Witness of C2 amended: with only `abc` registered, `abc^1` resolves as `abc`
does, to entry `0`. -/
theorem get_index_of_strip_witness :
    (∀ e ∈ table_abc.btree, e.1 ≠ (cstr "abc^1")) ∧ (cstr "abc^1").length > 3 ∧
      (cstr "abc^1").FindCharReverse '^' = some 3 ∧ 3 ≥ (cstr "abc^1").length - 4 ∧
      table_abc.get_index_of (cstr "abc^1") = table_abc.get_index_of (cstr "abc") ∧
      table_abc.get_index_of (cstr "abc") = some 0 :=
  ⟨by decide, by decide, by decide, by decide,
    get_index_of_strip table_abc (cstr "abc^1") 3 (by decide) (by decide) (by decide)
      (by decide), by decide⟩

/-- C3. Exported-suffix range match: for every table (with a well-formed sorted
index) and every name `n` that is not a key and that the `^` strip rule of the code
does not apply to, `n` resolves if and only if some key has `n` followed by `$` as a
prefix, and then to the index stored under the least such key. -/
theorem get_index_of_range (t : SystemImports) (hwf : t.btree.WF) (n : CString)
    (hkey : ∀ e ∈ t.btree, e.1 ≠ n)
    (hns : ¬ (n.length > 3 ∧ ∃ c, n.FindCharReverse '^' = some c ∧ c ≥ n.length - 4)) :
    (t.get_index_of n ≠ none ↔ ∃ e ∈ t.btree, n ++ ['$'] <+: e.1) ∧
    ∀ i, t.get_index_of n = some i ↔
      ∃ k, (k, i) ∈ t.btree ∧ n ++ ['$'] <+: k ∧
        ∀ e ∈ t.btree, n ++ ['$'] <+: e.1 → k ≤ e.1 := by
  have hg : t.get_index_of n = get_index_of_exported t.btree n :=
    get_index_of_eq_exported hkey hns
  rw [hg]
  refine ⟨?_, fun i => get_index_of_exported_eq_some_iff hwf n i⟩
  rw [Ne, get_index_of_exported_eq_none_iff hwf]
  push_neg
  rfl

/-- Witness of C3: with only `Type::Method$1` registered (at index `0`),
`Type::Method` resolves to index `0` and `Type::MethodX` is not found. -/
theorem get_index_of_range_witness :
    table_method.btree = [((cstr "Type::Method$1"), 0)] ∧
      table_method.get_index_of (cstr "Type::Method") = some 0 ∧
      table_method.get_index_of (cstr "Type::MethodX") = none := by
  refine ⟨by decide, ?_, ?_⟩
  · exact ((get_index_of_range table_method (by decide) (cstr "Type::Method")
      (by decide) (by decide)).2 0).mpr
      ⟨(cstr "Type::Method$1"), by decide, by decide, by decide⟩
  · have h := (get_index_of_range table_method (by decide) (cstr "Type::MethodX")
      (by decide) (by decide)).1
    by_contra hne
    have := h.mp hne
    revert this
    decide

/-- C4, as claimed, fails: after `add("DoThing^2", fn, none)` on the empty table
returned index `0`, the bare name `DoThing` is not found. -/
theorem get_index_of_bare_counterexample :
    (empty.add (cstr "DoThing^2") (some 1) none 0).2 = 0 ∧
      (empty.add (cstr "DoThing^2") (some 1) none 0).1.get_index_of (cstr "DoThing")
        = none ∧
      (empty.add (cstr "DoThing^2") (some 1) none 0).1.get_index_of (cstr "DoThing")
        ≠ some (empty.add (cstr "DoThing^2") (some 1) none 0).2 := by
  decide

/-- C4, amended. The native-suffix fallback goes from the suffixed name to the bare
registration: in a table whose only key is `b`, stored at index `i`, the name `b`
followed by `^` and a suffix `d` of at most 3 characters without `^` resolves to `i`
(the name having more than 3 characters in all); in a table whose only key is `b`
followed by `^` and any suffix, the bare name `b` is not found. -/
theorem get_index_of_suffix_fallback (imports : List ScriptImport) (b d : CString)
    (i : Nat) (hd : d.length ≤ 3) (hnd : '^' ∉ d) (hlen : b.length + 1 + d.length > 3) :
    get_index_of ⟨imports, [(b, i)]⟩ (b ++ '^' :: d) = some i ∧
      get_index_of ⟨imports, [(b ++ '^' :: d, i)]⟩ b = none := by
  refine ⟨?_, get_index_of_none_of_only_longer imports i b d⟩
  have hfind : IndexMap.find [(b, i)] (b ++ '^' :: d) = none := by
    rw [IndexMap.find_eq_none_iff]
    intro e he
    simp only [List.mem_singleton] at he
    subst he
    intro heq
    have := congrArg List.length heq
    simp at this
  have hc := FindCharReverse_append_cons b d '^' hnd
  have hl : (b ++ '^' :: d).length = b.length + 1 + d.length := by
    simp only [List.length_append, List.length_cons]
    omega
  rw [get_index_of_eq]
  simp only [hfind, hc, hl]
  rw [if_pos hlen, if_pos (by omega)]
  have hleft : CString.Left (b ++ '^' :: d) b.length = b := by
    simp [CString.Left]
  rw [hleft]
  exact get_index_of_of_find (t := ⟨imports, [(b, i)]⟩) (e := (b, i)) (by simp [IndexMap.find])

/-- Witness of C4 amended: after `add("DoThing", fn, none)` on the empty table
returned index `0`, the name `DoThing^2` resolves to `0`. -/
theorem get_index_of_suffix_fallback_witness :
    (empty.add (cstr "DoThing") (some 1) none 0).2 = 0 ∧
      table_dothing.btree = [((cstr "DoThing"), 0)] ∧
      (cstr "2").length ≤ 3 ∧ '^' ∉ (cstr "2") ∧
      (cstr "DoThing").length + 1 + (cstr "2").length > 3 ∧
      table_dothing.get_index_of ((cstr "DoThing") ++ '^' :: (cstr "2")) = some 0 ∧
      table_dothing2.get_index_of (cstr "DoThing") = none :=
  ⟨by decide, by decide, by decide, by decide, by decide,
    (get_index_of_suffix_fallback table_dothing.imports (cstr "DoThing") (cstr "2") 0
      (by decide) (by decide) (by decide)).1,
    (get_index_of_suffix_fallback table_dothing2.imports (cstr "DoThing") (cstr "2") 0
      (by decide) (by decide) (by decide)).2⟩

/-! ## Registration: `add` -/

/-- C5. Native registration always wins: in every reachable table, after
`add(n, v, none, k)` the call `getByName(n)` returns the entry `(n, v, none, k)`,
whatever `n` resolved to before; and `add(n, v₁, none)` followed by `add(n, v₂, none)`
returns the same index twice, after which `getByName(n)` yields `v₂`. -/
theorem add_native_wins (t : SystemImports) (hr : Reachable t) (n : CString)
    (v : RuntimeScriptValue) (k : ScriptValueHint) :
    (t.add n v none k).1.getByName n = some ⟨n, v, none, k⟩ ∧
    ∀ (v₁ v₂ : RuntimeScriptValue) (k₁ k₂ : ScriptValueHint),
      ((t.add n v₁ none k₁).1.add n v₂ none k₂).2 = (t.add n v₁ none k₁).2 ∧
      ((t.add n v₁ none k₁).1.add n v₂ none k₂).1.getByName n =
        some ⟨n, v₂, none, k₂⟩ := by
  have hinv := hr.inv
  refine ⟨getByName_add_native hinv n v k, ?_⟩
  intro v₁ v₂ k₁ k₂
  have hinv₁ : Inv (t.add n v₁ none k₁).1 := Inv_add hinv n v₁ none k₁
  exact ⟨add_snd_of_resolved (get_index_of_add_self hinv.1 n v₁ none k₁) v₂ none k₂,
    getByName_add_native hinv₁ n v₂ k₂⟩

/-- Witness of C5: in the table where module `7` exported `g`, a native registration
of `g` takes the entry over. -/
theorem add_native_wins_witness :
    Reachable table_g ∧
      table_g.getByName (cstr "g") = some ⟨cstr "g", some 1, some 7, 0⟩ ∧
      (table_g.add (cstr "g") (some 3) none 5).1.getByName (cstr "g") =
        some ⟨cstr "g", some 3, none, 5⟩ :=
  ⟨Reachable.add _ _ _ _ Reachable.empty, by decide,
    (add_native_wins table_g (Reachable.add _ _ _ _ Reachable.empty) (cstr "g")
      (some 3) 5).1⟩

/-- C6. Module-owned exports are protected from other modules: in every reachable
table in which `n` resolves to index `i` and slot `i` has an owning module,
`add(n, v₂, B)` with `B` a module leaves the table unchanged and returns `i`, so
`getByName(n)` is as before; a following `add(n, v₃, none)` returns `i` too and makes
`getByName(n)` yield the new entry. -/
theorem add_module_protected (t : SystemImports) (hr : Reachable t) (n : CString)
    (i : Nat) (e : ScriptImport) (hres : t.get_index_of n = some i)
    (hslot : t.imports[i]? = some e) (hown : e.InstancePtr ≠ none)
    (B : InstancePtr) (hB : B ≠ none) (v₂ v₃ : RuntimeScriptValue)
    (k₂ k₃ : ScriptValueHint) :
    t.add n v₂ B k₂ = (t, i) ∧
      (t.add n v₂ B k₂).1.getByName n = some e ∧
      ((t.add n v₂ B k₂).1.add n v₃ none k₃).2 = i ∧
      ((t.add n v₂ B k₂).1.add n v₃ none k₃).1.getByName n =
        some ⟨n, v₃, none, k₃⟩ := by
  have _ := hown
  have hadd : t.add n v₂ B k₂ = (t, i) := by
    rw [add_of_resolved hres, if_neg hB]
  rw [hadd]
  exact ⟨rfl, getByName_eq hres hslot, add_snd_of_resolved hres v₃ none k₃,
    getByName_add_native hr.inv n v₃ k₃⟩

/-- Witness of C6: `g` exported by module `7` is kept when module `8` exports `g`. -/
theorem add_module_protected_witness :
    Reachable table_g ∧ table_g.get_index_of (cstr "g") = some 0 ∧
      table_g.imports[0]? = some ⟨cstr "g", some 1, some 7, 0⟩ ∧
      table_g.add (cstr "g") (some 2) (some 8) 0 = (table_g, 0) ∧
      (table_g.add (cstr "g") (some 2) (some 8) 0).1.getByName (cstr "g") =
        some ⟨cstr "g", some 1, some 7, 0⟩ :=
  have h := add_module_protected table_g (Reachable.add _ _ _ _ Reachable.empty)
    (cstr "g") 0 ⟨cstr "g", some 1, some 7, 0⟩ (by decide) (by decide) (by decide)
    (some 8) (by decide) (some 2) (some 3) 0 0
  ⟨Reachable.add _ _ _ _ Reachable.empty, by decide, by decide, h.1, h.2.1⟩

/-- C7, as claimed, fails: a native entry is not overwritten by a caller that supplies
an owning module.  After `add("f", 1, none)`, the call `add("f", 2, module 7)` leaves
`getByName("f")` at the value `1`. -/
theorem add_over_native_counterexample :
    ¬ ∀ (t : SystemImports), Reachable t → ∀ (n : CString) (i : Nat) (e : ScriptImport),
      t.get_index_of n = some i → t.imports[i]? = some e → e.InstancePtr = none →
      ∀ (v : RuntimeScriptValue) (owner : InstancePtr) (k : ScriptValueHint),
        ((t.add n v owner k).1.getByName n).map ScriptImport.Value = some v := by
  intro h
  have := h table_f (Reachable.add _ _ _ _ Reachable.empty) (cstr "f") 0
    ⟨cstr "f", some 1, none, 0⟩ (by decide) (by decide) (by decide) (some 2) (some 7) 0
  revert this
  decide

/-- C7, amended. In every reachable table in which `n` resolves to index `i` and slot
`i` has no owning module, `add(n, v, owner, k)` returns `i` for every caller; a caller
without an owning module overwrites slot `i` in place (the index stays as it is and
`getByName(n)` then yields the new entry), and a caller that supplies an owning module
leaves the table unchanged. -/
theorem add_over_native (t : SystemImports) (hr : Reachable t) (n : CString)
    (i : Nat) (e : ScriptImport) (hres : t.get_index_of n = some i)
    (hslot : t.imports[i]? = some e) (hown : e.InstancePtr = none)
    (v : RuntimeScriptValue) (owner : InstancePtr) (k : ScriptValueHint) :
    (t.add n v owner k).2 = i ∧
      (owner = none →
        (t.add n v owner k).1 = ⟨t.imports.set i ⟨n, v, none, k⟩, t.btree⟩ ∧
        (t.add n v owner k).1.getByName n = some ⟨n, v, none, k⟩) ∧
      (owner ≠ none → (t.add n v owner k).1 = t) := by
  have _ := hslot
  have _ := hown
  refine ⟨add_snd_of_resolved hres v owner k, ?_, ?_⟩
  · intro ho
    subst ho
    refine ⟨?_, getByName_add_native hr.inv n v k⟩
    rw [add_of_resolved hres, if_pos rfl]
  · intro ho
    rw [add_of_resolved hres, if_neg ho]

/-- Witness of C7 amended: the native `f` is overwritten by a native caller and kept
against module `7`. -/
theorem add_over_native_witness :
    Reachable table_f ∧ table_f.get_index_of (cstr "f") = some 0 ∧
      table_f.imports[0]? = some ⟨cstr "f", some 1, none, 0⟩ ∧
      (table_f.add (cstr "f") (some 2) none 0).1.getByName (cstr "f") =
        some ⟨cstr "f", some 2, none, 0⟩ ∧
      (table_f.add (cstr "f") (some 2) (some 7) 0).1 = table_f :=
  ⟨Reachable.add _ _ _ _ Reachable.empty, by decide, by decide,
    ((add_over_native table_f (Reachable.add _ _ _ _ Reachable.empty) (cstr "f") 0
      ⟨cstr "f", some 1, none, 0⟩ (by decide) (by decide) rfl (some 2) none 0).2.1
      rfl).2,
    (add_over_native table_f (Reachable.add _ _ _ _ Reachable.empty) (cstr "f") 0
      ⟨cstr "f", some 1, none, 0⟩ (by decide) (by decide) rfl (some 2) (some 7) 0).2.2
      (by decide)⟩

/-- C8. Registration of an unresolved name: in every table (with a well-formed sorted
index) in which `n` does not resolve, `add(n, v, owner, k)` returns the least index
whose slot has an empty name, or the length of the sequence if there is none;
afterwards that slot holds `(n, v, owner, k)`, the sorted index is the old one plus
the key `n` mapping to the returned index, every other slot is as before, `n` resolves
to the returned index, and the sequence has grown by one in the append case and not
at all in the reuse case; in particular every slot that had a non-empty name keeps
its entry. -/
theorem add_unresolved (t : SystemImports) (hwf : t.btree.WF) (n : CString)
    (hg : t.get_index_of n = none) (v : RuntimeScriptValue) (owner : InstancePtr)
    (k : ScriptValueHint) :
    ((∀ j, j < (t.add n v owner k).2 → ∃ e, t.imports[j]? = some e ∧ e.Name ≠ []) ∧
      ((t.add n v owner k).2 = t.imports.length ∨
        ∃ e, t.imports[(t.add n v owner k).2]? = some e ∧ e.Name = [])) ∧
    (t.add n v owner k).1.imports[(t.add n v owner k).2]? = some ⟨n, v, owner, k⟩ ∧
    ((t.add n v owner k).1.btree.WF ∧
      ∀ e, e ∈ (t.add n v owner k).1.btree ↔
        e = (n, (t.add n v owner k).2) ∨ e ∈ t.btree) ∧
    (∀ j, j ≠ (t.add n v owner k).2 →
      (t.add n v owner k).1.imports[j]? = t.imports[j]?) ∧
    (t.add n v owner k).1.get_index_of n = some (t.add n v owner k).2 ∧
    ((t.add n v owner k).2 = t.imports.length →
      (t.add n v owner k).1.imports.length = t.imports.length + 1) ∧
    ((t.add n v owner k).2 < t.imports.length →
      (t.add n v owner k).1.imports.length = t.imports.length) ∧
    (∀ (j : Nat) (e : ScriptImport), t.imports[j]? = some e → e.Name ≠ [] →
      (t.add n v owner k).1.imports[j]? = some e) := by
  have hkey : ∀ e ∈ t.btree, e.1 ≠ n := by
    rw [← IndexMap.find_eq_none_iff]
    cases hf : t.btree.find n with
    | none => rfl
    | some e => rw [get_index_of_of_find hf] at hg; cases hg
  have hself := get_index_of_add_self hwf n v owner k
  have hle := findIdx_le t.imports
  have hspec := findIdx_free_spec t.imports
  have hmem : ∀ (ix : Nat) (e : CString × Nat),
      e ∈ t.btree.assign n ix ↔ e = (n, ix) ∨ e ∈ t.btree := by
    intro ix e
    rw [IndexMap.mem_assign hwf]
    constructor
    · rintro (h | ⟨h, -⟩)
      · exact Or.inl h
      · exact Or.inr h
    · rintro (h | h)
      · exact Or.inl h
      · exact Or.inr ⟨h, hkey e h⟩
  rw [add_of_unresolved hg] at hself ⊢
  split
  · next heq =>
    rw [if_pos heq] at hself
    simp only at hself ⊢
    refine ⟨hspec, ?_, ⟨IndexMap.WF_assign hwf _ _, hmem _⟩, ?_, hself, ?_, ?_, ?_⟩
    · rw [heq]
      simp
    · intro j hj
      rw [heq] at hj
      rcases Nat.lt_or_gt_of_ne hj with h | h
      · exact List.getElem?_append_left h
      · rw [List.getElem?_eq_none (by simp; omega), List.getElem?_eq_none (by omega)]
    · intro _
      simp
    · intro h
      omega
    · intro j e hj _
      have hlt : j < t.imports.length := by
        by_contra hge
        rw [List.getElem?_eq_none (by omega)] at hj
        cases hj
      rw [List.getElem?_append_left hlt]
      exact hj
  · next hne =>
    rw [if_neg hne] at hself
    simp only at hself ⊢
    refine ⟨hspec, ?_, ⟨IndexMap.WF_assign hwf _ _, hmem _⟩, ?_, hself, ?_, ?_, ?_⟩
    · exact List.getElem?_set_self (by omega)
    · intro j hj
      exact List.getElem?_set_ne (fun h => hj h.symm)
    · intro h
      exact absurd h hne
    · intro _
      simp
    · intro j e hj hne'
      have hji : t.imports.findIdx (fun imp => imp.Name = []) ≠ j := by
        intro h
        rcases hspec.2 with h' | ⟨e', he', hn'⟩
        · exact hne h'
        · rw [h, hj] at he'
          simp only [Option.some.injEq] at he'
          subst he'
          exact hne' hn'
      rw [List.getElem?_set_ne hji]
      exact hj

/-- Witness of C8: after `f` and `g` were registered and `f` removed, slot `0` is
free; registering the unresolved name `h` returns `0`, and `getByIndex(0)` then has
the name `h`. -/
theorem add_unresolved_witness :
    table_hole.btree.WF ∧ table_hole.get_index_of (cstr "h") = none ∧
      (table_hole.add (cstr "h") (some 3) none 0).2 = 0 ∧
      (table_hole.add (cstr "h") (some 3) none 0).1.imports[
          (table_hole.add (cstr "h") (some 3) none 0).2]? =
        some ⟨cstr "h", some 3, none, 0⟩ ∧
      (table_hole.add (cstr "h") (some 3) none 0).1.getByIndex 0 =
        some ⟨cstr "h", some 3, none, 0⟩ :=
  ⟨by decide, by decide, by decide,
    (add_unresolved table_hole (by decide) (cstr "h") (by decide) (some 3) none 0).2.1,
    by decide⟩

/-! ## Removal: `remove` -/

/-- C9, as claimed, fails: with `foo^1` and `foo` registered, after `remove("foo^1")`
the name `foo^1` still resolves, to the entry of `foo`. -/
theorem remove_unresolvable_counterexample :
    ¬ ∀ (t : SystemImports), Reachable t → ∀ (n : CString),
      (t.remove n).get_index_of n = none := by
  intro h
  have := h table_foo1 (Reachable.add _ _ _ _ (Reachable.add _ _ _ _ Reachable.empty))
    (cstr "foo^1")
  revert this
  decide

/-- C9, amended. In every table (with a well-formed sorted index), for a name `n`
that resolves to a slot `i` stored under its own name `k` (`k` is a key mapping to
`i`; `k` is `n` when `n` is itself the key of that slot): after `remove(n)` the key
`k` is no longer in the sorted index, and `get_index_of(n)` is not found, as
`getByName(n)` is null, if and only if no other key of the sorted index is one that
`get_index_of` accepts for `n`. -/
theorem remove_unresolvable (t : SystemImports) (hwf : t.btree.WF) (n : CString)
    (i : Nat) (e : ScriptImport) (hg : t.get_index_of n = some i)
    (hslot : t.imports[i]? = some e) (hk : (e.Name, i) ∈ t.btree) :
    (∀ x ∈ (t.remove n).btree, x.1 ≠ e.Name) ∧
      ((t.remove n).get_index_of n = none ↔
        ∀ x ∈ t.btree, x.1 ≠ e.Name → accepts x.1 n = false) ∧
      ((t.remove n).getByName n = none ↔
        ∀ x ∈ t.btree, x.1 ≠ e.Name → accepts x.1 n = false) := by
  have _ := hk
  obtain ⟨hbt, hiff⟩ := get_index_of_remove_eq_none_iff hwf hg hslot
  refine ⟨?_, hiff, (getByName_eq_none_iff _ n).trans hiff⟩
  intro x hx
  rw [hbt] at hx
  exact (IndexMap.mem_erase.mp hx).2

/-- Witness of C9 amended: with only `DoThing^2` registered, after
`remove("DoThing^2")` the name `DoThing^2` is not a key and is not found. -/
theorem remove_unresolvable_witness :
    table_dothing2.btree.WF ∧ table_dothing2.get_index_of (cstr "DoThing^2") = some 0 ∧
      table_dothing2.imports[0]? = some ⟨cstr "DoThing^2", some 1, none, 0⟩ ∧
      (∀ x ∈ (table_dothing2.remove (cstr "DoThing^2")).btree, x.1 ≠ cstr "DoThing^2") ∧
      (table_dothing2.remove (cstr "DoThing^2")).get_index_of (cstr "DoThing^2") = none ∧
      (table_dothing2.remove (cstr "DoThing^2")).getByName (cstr "DoThing^2") = none :=
  have h := remove_unresolvable table_dothing2 (by decide) (cstr "DoThing^2") 0
    ⟨cstr "DoThing^2", some 1, none, 0⟩ (by decide) (by decide) (by decide)
  ⟨by decide, by decide, by decide, h.1, h.2.1.mpr (by decide), h.2.2.mpr (by decide)⟩

/-- C10, as claimed, fails: with `f$1` and `f$2` exported, the first `remove("f")`
retires `f$1` and the second one retires `f$2`. -/
theorem remove_idempotent_counterexample :
    ¬ ∀ (t : SystemImports), Reachable t → ∀ (n : CString),
      (t.remove n).remove n = t.remove n := by
  intro h
  have := h table_f12 (Reachable.add _ _ _ _ (Reachable.add _ _ _ _ Reachable.empty))
    (cstr "f")
  revert this
  decide

/-- C10, amended. Idempotence of `remove` where the name cannot resolve to a second
entry: in every table (with a well-formed sorted index), for a name `n` such that,
when `n` resolves to a slot `i`, that slot is stored under its own name (its name is
a key mapping to `i`) and no other key of the sorted index is one that `get_index_of`
accepts for `n`, the table after `remove(n); remove(n)` is the table after a single
`remove(n)`. -/
theorem remove_idempotent (t : SystemImports) (hwf : t.btree.WF) (n : CString)
    (h : ∀ i, t.get_index_of n = some i →
      ∃ e, t.imports[i]? = some e ∧ (e.Name, i) ∈ t.btree ∧
        ∀ x ∈ t.btree, x.1 ≠ e.Name → accepts x.1 n = false) :
    (t.remove n).remove n = t.remove n := by
  cases hg : t.get_index_of n with
  | none => rw [remove_of_unresolved hg, remove_of_unresolved hg]
  | some i =>
    obtain ⟨e, hslot, -, hacc⟩ := h i hg
    exact remove_of_unresolved
      ((get_index_of_remove_eq_none_iff hwf hg hslot).2.mpr hacc)

/-- Witness of C10 amended: with only `DoThing^2` registered, removing `DoThing^2`
twice is removing it once. -/
theorem remove_idempotent_witness :
    table_dothing2.btree.WF ∧ table_dothing2.get_index_of (cstr "DoThing^2") = some 0 ∧
      (table_dothing2.remove (cstr "DoThing^2")).remove (cstr "DoThing^2") =
        table_dothing2.remove (cstr "DoThing^2") ∧
      table_dothing2.remove (cstr "DoThing^2") ≠ table_dothing2 :=
  ⟨by decide, by decide,
    remove_idempotent table_dothing2 (by decide) (cstr "DoThing^2")
      (fun i hi =>
        have h0 : table_dothing2.get_index_of (cstr "DoThing^2") = some 0 := by decide
        have hi0 : i = 0 := (Option.some.inj (hi.symm.trans h0))
        hi0 ▸ ⟨⟨cstr "DoThing^2", some 1, none, 0⟩, by decide, by decide, by decide⟩),
    by decide⟩

/-- C11. `remove` of an unresolved name is a no-op: in every table, if `n` does not
resolve then `remove(n)` leaves the sequence and the sorted index exactly as they
were. -/
theorem remove_not_found (t : SystemImports) (n : CString)
    (hg : t.get_index_of n = none) :
    (t.remove n).imports = t.imports ∧ (t.remove n).btree = t.btree := by
  rw [remove_of_unresolved hg]
  exact ⟨rfl, rfl⟩

/-- Witness of C11: with only `f` registered, `remove("zzz")` changes nothing. -/
theorem remove_not_found_witness :
    table_f.get_index_of (cstr "zzz") = none ∧
      (table_f.remove (cstr "zzz")).imports = table_f.imports ∧
      (table_f.remove (cstr "zzz")).btree = table_f.btree :=
  ⟨by decide, remove_not_found table_f (cstr "zzz") (by decide)⟩

/-- C12. Effect and frame of `remove`: in every reachable table in which `n` resolves
to index `i`, slot `i` holds an entry `e` and after `remove(n)` slot `i` is a
tombstone (empty name, invalid value, no owner), the sequence has the same length,
every other slot is as before, and the sorted index is the old one without the key
equal to the former name of slot `i`, all other keys and their indices being as
before. -/
theorem remove_effect (t : SystemImports) (hr : Reachable t) (n : CString) (i : Nat)
    (hg : t.get_index_of n = some i) :
    ∃ e, t.imports[i]? = some e ∧
      (t.remove n).imports[i]? = some ⟨[], none, none, 0⟩ ∧
      (t.remove n).imports.length = t.imports.length ∧
      (∀ j, j ≠ i → (t.remove n).imports[j]? = t.imports[j]?) ∧
      (∀ x, x ∈ (t.remove n).btree ↔ x ∈ t.btree ∧ x.1 ≠ e.Name) ∧
      (t.remove n).btree.WF := by
  have hinv := hr.inv
  have hlt := get_index_of_lt hinv hg
  have hidx : t.imports[i]? = some (t.imports.getD i default) := by
    rw [List.getD_eq_getElem?_getD, List.getElem?_eq_getElem hlt]
    rfl
  refine ⟨t.imports.getD i default, hidx, ?_⟩
  rw [remove_of_resolved hg]
  refine ⟨List.getElem?_set_self hlt, List.length_set _ _ _, ?_, ?_,
    IndexMap.WF_erase hinv.1 _⟩
  · intro j hj
    exact List.getElem?_set_ne (fun h => hj h.symm)
  · intro x
    exact IndexMap.mem_erase

/-- Witness of C12: with `foo^1` and `foo` registered, `remove("foo")` clears slot `1`
and leaves slot `0` and the key `foo^1` alone. -/
theorem remove_effect_witness :
    Reachable table_foo1 ∧ table_foo1.get_index_of (cstr "foo") = some 1 ∧
      ∃ e, table_foo1.imports[1]? = some e ∧
        (table_foo1.remove (cstr "foo")).imports[1]? = some ⟨[], none, none, 0⟩ ∧
        (table_foo1.remove (cstr "foo")).imports.length = table_foo1.imports.length ∧
        (∀ j, j ≠ 1 →
          (table_foo1.remove (cstr "foo")).imports[j]? = table_foo1.imports[j]?) ∧
        (∀ x, x ∈ (table_foo1.remove (cstr "foo")).btree ↔
          x ∈ table_foo1.btree ∧ x.1 ≠ e.Name) ∧
        (table_foo1.remove (cstr "foo")).btree.WF :=
  ⟨Reachable.add _ _ _ _ (Reachable.add _ _ _ _ Reachable.empty), by decide,
    remove_effect table_foo1
      (Reachable.add _ _ _ _ (Reachable.add _ _ _ _ Reachable.empty)) (cstr "foo") 1
      (by decide)⟩

/-- C13. `RemoveScriptExports` retires every export of a module: in every table and
for every module `a`, after `RemoveScriptExports(a)` every slot that had a non-empty
name and the owner `a` is a tombstone (name empty, value invalidated, owner cleared)
and its former name is no longer a key of the sorted index; and no slot with a
non-empty name has the owner `a`. -/
theorem RemoveScriptExports_retires (t : SystemImports) (a : Nat) :
    (∀ (j : Nat) (e : ScriptImport), t.imports[j]? = some e → e.Name ≠ [] →
      e.InstancePtr = some a →
        (t.RemoveScriptExports (some a)).imports[j]? =
          some ⟨[], none, none, e.ValueHint⟩ ∧
        ∀ x ∈ (t.RemoveScriptExports (some a)).btree, x.1 ≠ e.Name) ∧
    (∀ (j : Nat) (e : ScriptImport),
      (t.RemoveScriptExports (some a)).imports[j]? = some e → e.Name ≠ [] →
        e.InstancePtr ≠ some a) := by
  rw [RemoveScriptExports_of_some]
  refine ⟨?_, ?_⟩
  · intro j e hj hn ho
    refine ⟨?_, ?_⟩
    · simp only [List.getElem?_map, hj, Option.map_some', RemoveScriptExports_entry,
        if_neg hn, if_pos ho]
    · intro x hx
      exact ((mem_RemoveScriptExports_loop_snd _ _ _ _).mp hx).2 e
        (List.mem_iff_getElem?.mpr ⟨j, hj⟩) hn ho
  · intro j e hj hn
    simp only [List.getElem?_map] at hj
    obtain ⟨imp0, -, he⟩ := Option.map_eq_some'.mp hj
    subst he
    obtain ⟨e1, -, e3⟩ := RemoveScriptExports_entry_name hn
    rw [e1]
    exact e3

/-- In every table and for every module `A`, `RemoveScriptExports(A)` keeps the
length of the sequence and every slot whose owner is not `A`. -/
theorem RemoveScriptExports_slots_kept (t : SystemImports) (A : InstancePtr) :
    (t.RemoveScriptExports A).imports.length = t.imports.length ∧
    (∀ (j : Nat) (e : ScriptImport), t.imports[j]? = some e → e.InstancePtr ≠ A →
      (t.RemoveScriptExports A).imports[j]? = some e) := by
  cases A with
  | none =>
    rw [RemoveScriptExports_none]
    exact ⟨rfl, fun j e hj _ => hj⟩
  | some a =>
    rw [RemoveScriptExports_of_some]
    refine ⟨List.length_map _ _, ?_⟩
    intro j e hj ho
    simp only [List.getElem?_map, hj, Option.map_some', RemoveScriptExports_entry]
    split
    · rfl
    · rfl

/-- Where only non-empty names were registered, `RemoveScriptExports` does not
disturb other owners: in every table reached from the empty table by calls that
register non-empty names only, and for every module `A`, after
`RemoveScriptExports(A)` the sequence has the same length, every slot whose owner is
not `A` is as before, and every such slot `j` with a non-empty name `m` that was
stored under the key `m` still has `m` resolve to `j`. -/
theorem RemoveScriptExports_frame (ns : List CString) (t : SystemImports)
    (hr : ReachableWith ns t) (hns : ∀ n ∈ ns, n ≠ []) (A : InstancePtr) :
    (t.RemoveScriptExports A).imports.length = t.imports.length ∧
    (∀ (j : Nat) (e : ScriptImport), t.imports[j]? = some e → e.InstancePtr ≠ A →
      (t.RemoveScriptExports A).imports[j]? = some e) ∧
    (∀ (j : Nat) (e : ScriptImport), t.imports[j]? = some e → e.InstancePtr ≠ A →
      e.Name ≠ [] → (e.Name, j) ∈ t.btree →
      (t.RemoveScriptExports A).get_index_of e.Name = some j) := by
  have hinv := hr.reachable.inv
  obtain ⟨-, -, h2⟩ := hr.namedInv hns
  cases A with
  | none =>
    rw [RemoveScriptExports_none]
    exact ⟨rfl, fun j e hj _ => hj, fun j e _ _ _ hk => get_index_of_key hinv.1 hk⟩
  | some a =>
    have hwf' := (Inv_RemoveScriptExports hinv (some a)).1
    rw [RemoveScriptExports_of_some] at hwf' ⊢
    refine ⟨List.length_map _ _, ?_, ?_⟩
    · intro j e hj ho
      simp only [List.getElem?_map, hj, Option.map_some', RemoveScriptExports_entry]
      split
      · rfl
      · rfl
    · intro j e hj ho hn hk
      refine get_index_of_key hwf'
        ((mem_RemoveScriptExports_loop_snd _ _ _ _).mpr ⟨hk, ?_⟩)
      intro imp2 hmem hn2 ho2 heq
      simp only at heq
      obtain ⟨s, hs⟩ := List.getElem?_of_mem hmem
      rw [heq] at hk
      have hsj := h2 s imp2 hs hn2 j hk
      subst hsj
      rw [hs] at hj
      simp only [Option.some.injEq] at hj
      subst hj
      exact ho ho2

/-- An instance of `RemoveScriptExports_frame`: after modules `7` and `8` exported `a` and `b` and `c` was
registered natively, `RemoveScriptExports(7)` leaves `b` and `c` in their slots and
resolvable. -/
theorem RemoveScriptExports_frame_instance :
    ReachableWith [cstr "c", cstr "b", cstr "a"] table_owners ∧
      (∀ n ∈ [cstr "c", cstr "b", cstr "a"], n ≠ []) ∧
      (table_owners.RemoveScriptExports (some 7)).imports.length = 3 ∧
      (table_owners.RemoveScriptExports (some 7)).imports[1]? =
        some ⟨cstr "b", some 2, some 8, 0⟩ ∧
      (table_owners.RemoveScriptExports (some 7)).get_index_of (cstr "b") = some 1 ∧
      (table_owners.RemoveScriptExports (some 7)).get_index_of (cstr "c") = some 2 ∧
      (table_owners.RemoveScriptExports (some 7)).get_index_of (cstr "a") = none :=
  have h := RemoveScriptExports_frame [cstr "c", cstr "b", cstr "a"] table_owners
    (ReachableWith.add _ _ _ _ (ReachableWith.add _ _ _ _
      (ReachableWith.add _ _ _ _ ReachableWith.empty))) (by decide) (some 7)
  ⟨ReachableWith.add _ _ _ _ (ReachableWith.add _ _ _ _
      (ReachableWith.add _ _ _ _ ReachableWith.empty)), by decide, h.1,
    h.2.1 1 ⟨cstr "b", some 2, some 8, 0⟩ (by decide) (by decide),
    h.2.2 1 ⟨cstr "b", some 2, some 8, 0⟩ (by decide) (by decide) (by decide) (by decide),
    h.2.2 2 ⟨cstr "c", some 3, none, 0⟩ (by decide) (by decide) (by decide) (by decide),
    by decide⟩

/-- C15. `RemoveScriptExports` is a no-op when there is nothing to retire: in every
table, if no slot with a non-empty name has the owner `A` then `RemoveScriptExports(A)`
leaves the sequence and the sorted index unchanged; and `RemoveScriptExports(none)`
leaves every table unchanged. -/
theorem RemoveScriptExports_nothing (t : SystemImports) (A : InstancePtr)
    (h : ∀ imp ∈ t.imports, imp.Name ≠ [] → imp.InstancePtr ≠ A) :
    t.RemoveScriptExports A = t ∧ t.RemoveScriptExports none = t := by
  refine ⟨?_, RemoveScriptExports_none t⟩
  unfold RemoveScriptExports
  split
  · rfl
  · rw [RemoveScriptExports_loop_eq_self A t.imports t.btree h]

/-- Witness of C15: module `9` exported nothing, so `RemoveScriptExports(9)` leaves
the table of modules `7` and `8` as it is. -/
theorem RemoveScriptExports_nothing_witness :
    (∀ imp ∈ table_owners.imports, imp.Name ≠ [] → imp.InstancePtr ≠ some 9) ∧
      table_owners.RemoveScriptExports (some 9) = table_owners ∧
      table_owners.RemoveScriptExports none = table_owners :=
  ⟨by decide, RemoveScriptExports_nothing table_owners (some 9) (by decide)⟩

/-- C16 fails on the code: after `add("f", 1, none)` and `add("f^12", 2, none)` the
only slot carries the name `f^12`, which is not a key of the sorted index, and the
only key, `f`, maps to a slot whose name is not `f`; after `remove("f")` the key `f`
is still there and maps to a tombstone. -/
theorem index_agreement_fails :
    Reachable table_stale ∧
      table_stale.imports = [⟨cstr "f^12", some 2, none, 0⟩] ∧
      table_stale.btree = [(cstr "f", 0)] ∧
      Reachable (table_stale.remove (cstr "f")) ∧
      (table_stale.remove (cstr "f")).imports = [⟨[], none, none, 0⟩] ∧
      (table_stale.remove (cstr "f")).btree = [(cstr "f", 0)] :=
  ⟨Reachable.add _ _ _ _ (Reachable.add _ _ _ _ Reachable.empty), by decide, by decide,
    Reachable.remove _ (Reachable.add _ _ _ _ (Reachable.add _ _ _ _ Reachable.empty)),
    by decide, by decide⟩

/-! ## Invariants and lookups -/

/-- C17, as claimed, fails: after `add("foo", 1, none)` returned index `0` on the
empty table, the single further call `add("foo^1", 2, none)`, whose name is not `foo`,
resolves to slot `0` and overwrites it. -/
theorem add_index_stable_counterexample :
    ¬ ∀ (t : SystemImports), Reachable t → ∀ (n : CString) (v : RuntimeScriptValue)
      (owner : InstancePtr) (k : ScriptValueHint) (l : List AddArgs),
      (∀ a ∈ l, a.1 ≠ n) →
      (addAll (t.add n v owner k).1 l).get_index_of n = some (t.add n v owner k).2 ∧
      (addAll (t.add n v owner k).1 l).getByIndex (t.add n v owner k).2 =
        (t.add n v owner k).1.getByIndex (t.add n v owner k).2 := by
  intro h
  have := h empty Reachable.empty (cstr "foo") (some 1) none 0
    [(cstr "foo^1", some 2, none, 0)] (by decide)
  revert this
  decide

/-- C17, amended. Stability of a registered index: if `add(n, v, owner, k)` returned
`i` on a reachable table and afterwards `n` is a key of the sorted index mapping to
`i` and slot `i` holds an entry `e` with a non-empty name, then after any further
sequence of `add` calls none of which is a call without an owning module given a name
that resolves to `i` at the time of the call, `n` still resolves to `i` and
`getByIndex(i)` still returns `e`.  Calls that supply an owning module are allowed
under any name. -/
theorem add_index_stable (t : SystemImports) (hr : Reachable t) (n : CString)
    (v : RuntimeScriptValue) (owner : InstancePtr) (k : ScriptValueHint)
    (e : ScriptImport) (l : List AddArgs)
    (hkey : (n, (t.add n v owner k).2) ∈ (t.add n v owner k).1.btree)
    (hslot : (t.add n v owner k).1.imports[(t.add n v owner k).2]? = some e)
    (hne : e.Name ≠ [])
    (hav : addAllSpares (t.add n v owner k).2 (t.add n v owner k).1 l = true) :
    (addAll (t.add n v owner k).1 l).get_index_of n = some (t.add n v owner k).2 ∧
      (addAll (t.add n v owner k).1 l).getByIndex (t.add n v owner k).2 = some e := by
  have hinv : Inv (t.add n v owner k).1 := Inv_add hr.inv n v owner k
  obtain ⟨hinv', hk, hs⟩ := addAll_keeps_slot hinv hkey hslot hne l hav
  exact ⟨get_index_of_key hinv'.1 hk, getByIndex_eq hs⟩

/-- Witness of C17 amended: after `add("foo", 1, none)` returned `0` on the empty
table, a registration of `foo^1` by module `7`, which resolves to slot `0`, and
registrations of `bar` by module `7` and natively leave `foo` at index `0` with its
entry. -/
theorem add_index_stable_witness :
    (empty.add (cstr "foo") (some 1) none 0).2 = 0 ∧
      (empty.add (cstr "foo") (some 1) none 0).1.get_index_of (cstr "foo^1") = some 0 ∧
      (addAll (empty.add (cstr "foo") (some 1) none 0).1
        [(cstr "foo^1", some 2, some 7, 0), (cstr "bar", some 2, some 7, 0),
          (cstr "bar", some 3, none, 0)]).get_index_of
          (cstr "foo") = some (empty.add (cstr "foo") (some 1) none 0).2 ∧
      (addAll (empty.add (cstr "foo") (some 1) none 0).1
        [(cstr "foo^1", some 2, some 7, 0), (cstr "bar", some 2, some 7, 0),
          (cstr "bar", some 3, none, 0)]).getByIndex
          (empty.add (cstr "foo") (some 1) none 0).2 =
        some ⟨cstr "foo", some 1, none, 0⟩ :=
  ⟨by decide, by decide,
    add_index_stable empty Reachable.empty (cstr "foo") (some 1) none 0
      ⟨cstr "foo", some 1, none, 0⟩
      [(cstr "foo^1", some 2, some 7, 0), (cstr "bar", some 2, some 7, 0),
        (cstr "bar", some 3, none, 0)]
      (by decide) (by decide) (by decide) (by decide)⟩

/-- C18, as claimed, fails: after the single call `add("Type::Method$1", fn, 7)` the
name `Type::Method`, never passed to `add`, resolves to index `0`. -/
theorem get_index_of_never_added_counterexample :
    ¬ ∀ (ns : List CString) (t : SystemImports), ReachableWith ns t →
      ∀ (n : CString), n ∉ ns → t.get_index_of n = none := by
  intro h
  have := h [cstr "Type::Method$1"] table_method
    (ReachableWith.add _ _ _ _ ReachableWith.empty) (cstr "Type::Method") (by decide)
  revert this
  decide

/-- C18, amended. In every table reached from the empty table by a sequence of calls,
a name never passed to `add` is not a key of the sorted index; and a name `n` such
that no name passed to `add` is one that `get_index_of` accepts for `n` (`n` itself,
`n` cut at its last `^` for as long as the strip rule applies, or a continuation with
`$` of the last name so obtained) is not found, by `get_index_of` and by
`getByName`. -/
theorem get_index_of_never_added (ns : List CString) (t : SystemImports)
    (hr : ReachableWith ns t) (n : CString) (h : ∀ a ∈ ns, accepts a n = false) :
    (∀ m, m ∉ ns → ∀ e ∈ t.btree, e.1 ≠ m) ∧
      t.get_index_of n = none ∧ t.getByName n = none := by
  have hsub := hr.keys_subset
  have hg : t.get_index_of n = none := by
    cases hg : t.get_index_of n with
    | none => rfl
    | some i =>
      obtain ⟨k, hk, ha⟩ := get_index_of_accepts hg
      rw [h k (hsub _ hk)] at ha
      cases ha
  refine ⟨?_, hg, ?_⟩
  · intro m hm e he heq
    exact hm (heq ▸ hsub e he)
  · unfold getByName
    rw [hg]

/-- Witness of C18 amended: after the single call `add("Type::Method$1", fn, 7)` the
name `Type::MethodX` is not found. -/
theorem get_index_of_never_added_witness :
    ReachableWith [cstr "Type::Method$1"] table_method ∧
      (∀ a ∈ [cstr "Type::Method$1"], accepts a (cstr "Type::MethodX") = false) ∧
      table_method.get_index_of (cstr "Type::MethodX") = none ∧
      table_method.getByName (cstr "Type::MethodX") = none :=
  ⟨ReachableWith.add _ _ _ _ ReachableWith.empty, by decide,
    (get_index_of_never_added [cstr "Type::Method$1"] table_method
      (ReachableWith.add _ _ _ _ ReachableWith.empty) (cstr "Type::MethodX")
      (by decide)).2⟩

/-- C19. `clear` empties the table: after `clear()` the sequence and the sorted index
are empty, no name resolves and `getByName` is null for every name, `getByIndex` is
null for every index, and `findName` is the empty name for every value. -/
theorem clear_empties (t : SystemImports) :
    t.clear.imports = [] ∧ t.clear.btree = [] ∧
      (∀ n, t.clear.get_index_of n = none ∧ t.clear.getByName n = none) ∧
      (∀ i, t.clear.getByIndex i = none) ∧ ∀ v, t.clear.findName v = [] := by
  refine ⟨rfl, rfl, ?_, ?_, ?_⟩
  · intro n
    have hg : t.clear.get_index_of n = none := get_index_of_nil [] n
    refine ⟨hg, ?_⟩
    unfold getByName
    rw [hg]
  · intro i
    simp [getByIndex, clear]
  · intro v
    simp [findName, clear]

/-- C20. `getByName` agrees with `get_index_of`: in every reachable table,
`getByName(n)` is null exactly when `n` does not resolve, and when `n` resolves to `i`
then `i` is a position of the sequence and `getByName(n)` is the entry of slot `i`,
which is `getByIndex(i)`. -/
theorem getByName_agrees (t : SystemImports) (hr : Reachable t) (n : CString) :
    (t.getByName n = none ↔ t.get_index_of n = none) ∧
      ∀ i, t.get_index_of n = some i →
        i < t.imports.length ∧ t.getByName n = t.imports[i]? ∧
        t.getByName n = t.getByIndex i := by
  refine ⟨?_, ?_⟩
  · unfold getByName
    cases t.get_index_of n <;> simp
  · intro i hg
    have hlt := get_index_of_lt hr.inv hg
    have hidx : t.imports[i]? = some (t.imports.getD i default) := by
      rw [List.getD_eq_getElem?_getD, List.getElem?_eq_getElem hlt]
      rfl
    refine ⟨hlt, ?_, ?_⟩
    · rw [getByName_eq hg hidx, hidx]
    · rw [getByName_eq hg hidx, getByIndex_eq hidx]

/-- Witness of C20: with only `Type::Method$1` registered, `getByName("Type::Method")`
is the entry of slot `0`, and `getByName("Type::MethodX")` is null. -/
theorem getByName_agrees_witness :
    Reachable table_method ∧
      table_method.get_index_of (cstr "Type::Method") = some 0 ∧
      table_method.getByName (cstr "Type::Method") = table_method.getByIndex 0 ∧
      table_method.getByName (cstr "Type::Method") =
        some ⟨cstr "Type::Method$1", some 1, some 7, 0⟩ ∧
      (table_method.getByName (cstr "Type::MethodX") = none ↔
        table_method.get_index_of (cstr "Type::MethodX") = none) :=
  ⟨Reachable.add _ _ _ _ Reachable.empty, by decide,
    ((getByName_agrees table_method (Reachable.add _ _ _ _ Reachable.empty)
      (cstr "Type::Method")).2 0 (by decide)).2.2,
    by decide,
    (getByName_agrees table_method (Reachable.add _ _ _ _ Reachable.empty)
      (cstr "Type::MethodX")).1⟩

/-! ## Lookups by index and by value: `getByIndex`, `findName` -/

/-- C21. `getByIndex` is bounds-checked: in every table and for every index `i`,
`getByIndex(i)` is null if and only if `i` is at least the length of the sequence, and
for `i` below the length it is slot `i` as stored, also when that slot is a tombstone
(its name is empty). -/
theorem getByIndex_bounds (t : SystemImports) (i : Nat) :
    (t.getByIndex i = none ↔ t.imports.length ≤ i) ∧
      t.getByIndex i = t.imports[i]? ∧
      ∀ e, t.imports[i]? = some e → e.Name = [] → t.getByIndex i = some e := by
  have h := getByIndex_eq_getElem? t i
  refine ⟨?_, h, ?_⟩
  · rw [h]
    exact List.getElem?_eq_none_iff
  · intro e he _
    rw [h, he]

/-- C22, as claimed, fails: `findName` does not skip tombstones.  After `f` was
registered, `g` was registered with the invalid value and `f` was removed, the
tombstone of `f` is the first entry with the invalid value, and `findName` returns
its empty name and not `g`. -/
theorem findName_first_counterexample :
    ¬ ∀ (t : SystemImports), Reachable t → ∀ (v : RuntimeScriptValue),
      t.findName v = t.findName_spec v := by
  intro h
  have := h table_invalid
    (Reachable.remove _ (Reachable.add _ _ _ _ (Reachable.add _ _ _ _ Reachable.empty)))
    none
  revert this
  decide

/-- C22, amended. Reverse lookup `findName`: in every table and for every value `v`,
`findName(v)` is the name of the lowest-index slot whose value equals `v`, whether or
not that slot is a tombstone, and the empty name if no slot has the value `v`; so
where no slot with an empty name has the value `v`, it is the name of the
lowest-index slot that is not a tombstone and has the value `v`, and the empty name
if there is none. -/
theorem findName_first (t : SystemImports) (v : RuntimeScriptValue) :
    (∀ (j : Nat) (e : ScriptImport), t.imports[j]? = some e → e.Value = v →
      (∀ (j' : Nat) (e' : ScriptImport), j' < j → t.imports[j']? = some e' →
        e'.Value ≠ v) →
      t.findName v = e.Name) ∧
    ((∀ imp ∈ t.imports, imp.Value ≠ v) → t.findName v = []) ∧
    ((∀ imp ∈ t.imports, imp.Value = v → imp.Name ≠ []) →
      t.findName v = t.findName_spec v) := by
  refine ⟨?_, ?_, ?_⟩
  · intro j e hj hv hfirst
    unfold findName
    rw [find?_value_eq_of_first t.imports v j e hj hv hfirst]
  · intro h
    unfold findName
    have : t.imports.find? (fun imp => imp.Value = v) = none := by
      rw [List.find?_eq_none]
      intro imp himp
      simpa using h imp himp
    rw [this]
  · intro h
    unfold findName findName_spec
    rw [find?_value_eq_spec t.imports v h]

/-- Witness of C22 amended: in the table with the tombstone of `f` and the entry `g`
of invalid value, `findName` of the invalid value is the empty name of the tombstone;
in the table of modules `7` and `8`, `findName(2)` is `b`, as the specification
has it. -/
theorem findName_first_witness :
    table_invalid.findName none = [] ∧
      (∀ imp ∈ table_owners.imports, imp.Value = some 2 → imp.Name ≠ []) ∧
      table_owners.findName (some 2) = table_owners.findName_spec (some 2) ∧
      table_owners.findName (some 2) = cstr "b" :=
  ⟨(findName_first table_invalid none).1 0 ⟨[], none, none, 0⟩ (by decide) rfl
      (fun j' _ h _ => absurd h (Nat.not_lt_zero j')),
    by decide, (findName_first table_owners (some 2)).2.2 (by decide), by decide⟩

/-! ## Name resolution: what `get_index_of` accepts -/

/-- C23. No false positives in `get_index_of`: in every table, if `n` resolves to an
index `i`, then the sorted index contains a key `k` mapping to `i` such that, for some
`b` that is `n` itself or `n` after removing one or more trailing `^` suffixes (each
starting at a `^` within the last 4 characters), either `k = b` or `k` has `b`
followed by `$` as a prefix. -/
theorem get_index_of_no_false_positive (t : SystemImports) (n : CString) (i : Nat)
    (h : t.get_index_of n = some i) :
    ∃ k b, (k, i) ∈ t.btree ∧ StripsTo n b ∧ (k = b ∨ b ++ ['$'] <+: k) := by
  obtain ⟨k, hk, ha⟩ := get_index_of_accepts h
  obtain ⟨b, hb, hkb⟩ := accepts_fuel_stripsTo k _ n ha
  exact ⟨k, b, hk, hb, hkb⟩

/-- Witness of C23: with only `abc` registered, `abc^1` resolves to index `0`, which
is stored under a key as the claim describes. -/
theorem get_index_of_no_false_positive_witness :
    table_abc.get_index_of (cstr "abc^1") = some 0 ∧
      ∃ k b, (k, 0) ∈ table_abc.btree ∧ StripsTo (cstr "abc^1") b ∧
        (k = b ∨ b ++ ['$'] <+: k) :=
  ⟨by decide, get_index_of_no_false_positive table_abc (cstr "abc^1") 0 (by decide)⟩

/-- C24, as claimed, fails: there is no fall-through after a failed strip.  With only
`ab^x$1` registered, `ab^x` is not a key, its `^` lies within its last 4 characters,
the stripped name `ab` does not resolve and the key `ab^x$1` has `ab^x$` as a prefix,
yet `ab^x` is not found. -/
theorem get_index_of_no_fall_through_counterexample :
    ¬ ∀ (t : SystemImports), t.btree.WF → ∀ (n : CString) (c : Nat),
      (∀ e ∈ t.btree, e.1 ≠ n) → n.FindCharReverse '^' = some c → c ≥ n.length - 4 →
      t.get_index_of (n.Left c) = none → ∀ e ∈ t.btree, n ++ ['$'] <+: e.1 →
      ∃ e' ∈ t.btree, n ++ ['$'] <+: e'.1 ∧ t.get_index_of n = some e'.2 := by
  intro h
  have := h table_abx (by decide) (cstr "ab^x") 2 (by decide) (by decide) (by decide)
    (by decide) (cstr "ab^x$1", 0) (by decide) (by decide)
  revert this
  decide

/-- C24, amended. No fall-through after a failed suffix strip: in every table, for a
name `n` of more than 3 characters that is not a key and whose last `^` lies within
its last 4 characters, if the stripped name does not resolve then `n` is not found,
whether or not a key has `n` followed by `$` as a prefix. -/
theorem get_index_of_no_fall_through (t : SystemImports) (n : CString) (c : Nat)
    (hkey : ∀ e ∈ t.btree, e.1 ≠ n) (hlen : n.length > 3)
    (hc : n.FindCharReverse '^' = some c) (hin : c ≥ n.length - 4)
    (hnone : t.get_index_of (n.Left c) = none) :
    t.get_index_of n = none := by
  rw [get_index_of_eq t n, IndexMap.find_eq_none_iff.mpr hkey]
  simp only [hlen, if_true, hc, hin]
  exact hnone

/-- Witness of C24 amended: with only `ab^x$1` registered, `ab^x` is not found. -/
theorem get_index_of_no_fall_through_witness :
    (∀ e ∈ table_abx.btree, e.1 ≠ cstr "ab^x") ∧
      (cstr "ab^x").FindCharReverse '^' = some 2 ∧
      table_abx.get_index_of ((cstr "ab^x").Left 2) = none ∧
      (cstr "ab^x" ++ ['$'] <+: cstr "ab^x$1") ∧
      table_abx.get_index_of (cstr "ab^x") = none :=
  ⟨by decide, by decide, by decide, by decide,
    get_index_of_no_fall_through table_abx (cstr "ab^x") 2 (by decide) (by decide)
      (by decide) (by decide) (by decide)⟩

/-- C25, as claimed, fails: a `^` followed by exactly 3 characters is stripped.  With
only `foo` registered, `foo^123` has its `^` at position 3, followed by 3 characters,
and resolves to the entry of `foo` instead of going to the `$` rule (which finds
nothing). -/
theorem get_index_of_suffix_bound_counterexample :
    ¬ ∀ (t : SystemImports) (n : CString) (c : Nat), (∀ e ∈ t.btree, e.1 ≠ n) →
      n.FindCharReverse '^' = some c → n.length - c > 3 →
      t.get_index_of n = get_index_of_exported t.btree n := by
  intro h
  have := h table_foo_only (cstr "foo^123") 3 (by decide) (by decide) (by decide)
  revert this
  decide

/-- C25, amended. Arity-suffix length bound: in every table, for a name `n` of more
than 3 characters that is not a key and whose last `^` is at position `c`, the suffix
is stripped exactly when the separator and the characters after it are at most 4
characters (up to three characters after the `^`): then `n` resolves as `n` cut at
`c` does; with 4 or more characters after the `^` no strip is done and `n` is
resolved by the `$` rule alone. -/
theorem get_index_of_suffix_bound (t : SystemImports) (n : CString) (c : Nat)
    (hkey : ∀ e ∈ t.btree, e.1 ≠ n) (hlen : n.length > 3)
    (hc : n.FindCharReverse '^' = some c) :
    (n.length - c ≤ 4 → t.get_index_of n = t.get_index_of (n.Left c)) ∧
      (n.length - c > 4 → t.get_index_of n = get_index_of_exported t.btree n) := by
  have hlt := CString.FindCharReverse_lt hc
  refine ⟨?_, ?_⟩
  · intro h
    have hin : c ≥ n.length - 4 := by omega
    rw [get_index_of_eq t n, IndexMap.find_eq_none_iff.mpr hkey]
    simp only [hlen, if_true, hc, hin]
  · intro h
    have hin : ¬ c ≥ n.length - 4 := by omega
    rw [get_index_of_eq t n, IndexMap.find_eq_none_iff.mpr hkey]
    simp only [hlen, if_true, hc, hin, if_false]

/-- Witness of C25 amended: with only `foo` registered, `foo^123` resolves to index
`0` and `foo^1234` is not found. -/
theorem get_index_of_suffix_bound_witness :
    table_foo_only.get_index_of (cstr "foo^123") =
        table_foo_only.get_index_of ((cstr "foo^123").Left 3) ∧
      table_foo_only.get_index_of ((cstr "foo^123").Left 3) = some 0 ∧
      table_foo_only.get_index_of (cstr "foo^1234") =
        get_index_of_exported table_foo_only.btree (cstr "foo^1234") ∧
      get_index_of_exported table_foo_only.btree (cstr "foo^1234") = none :=
  ⟨(get_index_of_suffix_bound table_foo_only (cstr "foo^123") 3 (by decide) (by decide)
      (by decide)).1 (by decide),
    by decide,
    (get_index_of_suffix_bound table_foo_only (cstr "foo^1234") 3 (by decide) (by decide)
      (by decide)).2 (by decide),
    by decide⟩

/-- C27. In-bounds invariant: in every table reachable from the empty table by `add`,
`remove`, `RemoveScriptExports` and `clear`, every index stored in the sorted index is
smaller than the length of the sequence; hence `get_index_of` returns either
not-found or an index below the length, so that the accesses `imports[idx]` of `add`,
`remove` and `getByName` stay inside the sequence. -/
theorem index_in_bounds (t : SystemImports) (hr : Reachable t) :
    (∀ e ∈ t.btree, e.2 < t.imports.length) ∧
      ∀ n, t.get_index_of n = none ∨
        ∃ i, t.get_index_of n = some i ∧ i < t.imports.length := by
  have hinv := hr.inv
  refine ⟨hinv.2, ?_⟩
  intro n
  cases hg : t.get_index_of n with
  | none => exact Or.inl rfl
  | some i => exact Or.inr ⟨i, rfl, get_index_of_lt hinv hg⟩

/-- Witness of C27: in the table where two keys map to one slot, both stored indices
are below the length `1`. -/
theorem index_in_bounds_witness :
    Reachable table_shared ∧ table_shared.imports.length = 1 ∧
      (∀ e ∈ table_shared.btree, e.2 < table_shared.imports.length) ∧
      ∀ n, table_shared.get_index_of n = none ∨
        ∃ i, table_shared.get_index_of n = some i ∧ i < table_shared.imports.length :=
  ⟨Reachable.add _ _ _ _ (Reachable.add _ _ _ _ (Reachable.remove _
      (Reachable.add _ _ _ _ (Reachable.add _ _ _ _ Reachable.empty)))),
    by decide,
    index_in_bounds table_shared
      (Reachable.add _ _ _ _ (Reachable.add _ _ _ _ (Reachable.remove _
        (Reachable.add _ _ _ _ (Reachable.add _ _ _ _ Reachable.empty)))))⟩

/-- C28. Termination of `get_index_of`: in every table and for every name, the body of
`get_index_of` run with more fuel than the name has `^` characters returns, with the
result of `get_index_of`, after at most as many recursive calls as the name has `^`
characters; a recursive call is made on `name.Left(c)` with `c` smaller than the
length of the name, a strictly shorter name; and for a name of more than 3 characters
the `size_t` subtraction `length - 4` does not wrap around. -/
theorem get_index_of_terminates (t : SystemImports) (name : CString) (fuel : Nat)
    (h : name.count '^' < fuel) :
    (∃ calls, get_index_of_calls t.btree fuel name = some (t.get_index_of name, calls) ∧
      calls ≤ name.count '^') ∧
    (∀ c, name.FindCharReverse '^' = some c →
      c < name.length ∧ (name.Left c).length < name.length) ∧
    (name.length > 3 → name.length < 2 ^ 64 →
      size_t_sub name.length 4 = name.length - 4) := by
  refine ⟨get_index_of_calls_spec t.btree fuel name h, ?_, ?_⟩
  · intro c hc
    exact ⟨CString.FindCharReverse_lt hc, CString.length_Left_lt hc⟩
  · intro h3 h64
    unfold size_t_sub
    norm_num at h64 ⊢
    omega

/-- Witness of C28: with only `foo` registered, `fo^1^1` has two `^` characters and
is resolved (to not-found) after two recursive calls; without the guard the
subtraction `3 - 4` would wrap around. -/
theorem get_index_of_terminates_witness :
    (cstr "fo^1^1").count '^' < 3 ∧
      (∃ calls, get_index_of_calls table_foo_only.btree 3 (cstr "fo^1^1") =
          some (table_foo_only.get_index_of (cstr "fo^1^1"), calls) ∧
        calls ≤ (cstr "fo^1^1").count '^') ∧
      get_index_of_calls table_foo_only.btree 3 (cstr "fo^1^1") = some (none, 2) ∧
      size_t_sub 3 4 = 2 ^ 64 - 1 :=
  ⟨by decide,
    (get_index_of_terminates table_foo_only (cstr "fo^1^1") 3 (by decide)).1,
    by decide, by decide⟩

/-- C29 fails on the code: in a reachable table the keys `foo` and `foo^1` both map
to slot `0`, whose name is `foo^1`; `foo^2` is not a key and resolves to `0` through
the strip rule; after `remove("foo^2")` the key `foo^1` is gone and slot `0` is a
tombstone, but `foo^1` still resolves to `0`, through the key `foo` that was left on
the slot. -/
theorem remove_non_exact_fails :
    Reachable table_shared ∧
      table_shared.imports = [⟨cstr "foo^1", some 4, none, 0⟩] ∧
      table_shared.btree = [(cstr "foo", 0), (cstr "foo^1", 0)] ∧
      (∀ x ∈ table_shared.btree, x.1 ≠ cstr "foo^2") ∧
      table_shared.get_index_of (cstr "foo^2") = some 0 ∧
      (table_shared.remove (cstr "foo^2")).imports = [⟨[], none, none, 0⟩] ∧
      (table_shared.remove (cstr "foo^2")).btree = [(cstr "foo", 0)] ∧
      (table_shared.remove (cstr "foo^2")).get_index_of (cstr "foo^1") = some 0 :=
  ⟨Reachable.add _ _ _ _ (Reachable.add _ _ _ _ (Reachable.remove _
      (Reachable.add _ _ _ _ (Reachable.add _ _ _ _ Reachable.empty)))),
    by decide, by decide, by decide, by decide, by decide, by decide, by decide⟩

/-- Where keys and names agree, `remove` through a non-exact name removes the
resolved entry under its own key: in every table in which `n` is not a key but
resolves to `i`, and the name of slot `i` is a key `k` mapping to `i`, after
`remove(n)` the key `k` is no longer in the sorted index and slot `i` is a tombstone;
and when no other key maps to `i`, `k` no longer resolves to `i`. -/
theorem remove_non_exact (t : SystemImports) (n : CString) (i : Nat) (e : ScriptImport)
    (hkey : ∀ x ∈ t.btree, x.1 ≠ n) (hg : t.get_index_of n = some i)
    (hslot : t.imports[i]? = some e) (hk : (e.Name, i) ∈ t.btree) :
    (∀ x ∈ (t.remove n).btree, x.1 ≠ e.Name) ∧
      (t.remove n).imports[i]? = some ⟨[], none, none, 0⟩ ∧
      ((∀ x ∈ t.btree, x.2 = i → x.1 = e.Name) →
        (t.remove n).get_index_of e.Name ≠ some i) := by
  have _ := hkey
  have _ := hk
  have hlt : i < t.imports.length := by
    by_contra hge
    rw [List.getElem?_eq_none (by omega)] at hslot
    cases hslot
  have hname : (t.imports.getD i default).Name = e.Name := by
    rw [List.getD_eq_getElem?_getD, hslot]
    rfl
  have hbt : ∀ x ∈ (t.remove n).btree, x ∈ t.btree ∧ x.1 ≠ e.Name := by
    intro x hx
    rw [remove_of_resolved hg, hname] at hx
    exact IndexMap.mem_erase.mp hx
  refine ⟨fun x hx => (hbt x hx).2, ?_, ?_⟩
  · rw [remove_of_resolved hg]
    exact List.getElem?_set_self hlt
  · intro honly hres
    obtain ⟨k, hk'⟩ := get_index_of_mem _ _ _ hres
    obtain ⟨h1, h2⟩ := hbt _ hk'
    exact h2 (honly _ h1 rfl)

/-- An instance of `remove_non_exact`: with only `Type::Method$1` registered,
`remove("Type::Method")` retires `Type::Method$1`. -/
theorem remove_non_exact_instance :
    (∀ x ∈ table_method.btree, x.1 ≠ cstr "Type::Method") ∧
      table_method.get_index_of (cstr "Type::Method") = some 0 ∧
      (∀ x ∈ (table_method.remove (cstr "Type::Method")).btree,
        x.1 ≠ cstr "Type::Method$1") ∧
      (table_method.remove (cstr "Type::Method")).imports[0]? =
        some ⟨[], none, none, 0⟩ ∧
      (table_method.remove (cstr "Type::Method")).get_index_of (cstr "Type::Method$1")
        ≠ some 0 :=
  have h := remove_non_exact table_method (cstr "Type::Method") 0
    ⟨cstr "Type::Method$1", some 1, some 7, 0⟩ (by decide) (by decide) (by decide)
    (by decide)
  ⟨by decide, by decide, h.1, h.2.1, h.2.2 (by decide)⟩

end SystemImports

end AGS
